import Mathlib

/-!
# Verification of the commently-editor clipboard / content pipeline

A shallow embedding of the editor's pure content-transformation logic:

* `src/utils/string.ts` — the text sanitizer (`filterToSafeText`,
  `cleanupMarkdownOutput`).  JavaScript strings are sequences of UTF-16 code
  units, so the sanitizer is modelled on `List Nat` of code units, exactly as
  the source iterates `charCodeAt` positions.
* `src/embed.ts` — the URL recognizer (`parseEmbedUrl`), the paste handler and
  the Enter-key handler of the `Embed` node.
* the editor module (markdown heuristic `looksLikeMarkdown`, heading
  normalizers `clampHeadingLevel`, `normalizeHeadingLevelsInContent`,
  `normalizeDocHeadingLevels`, and the `MarkdownCopy` copy handler).

External collaborators (the WHATWG `URL` parser, `DOMParser` anchor lookup,
the markdown serializer) are passed in as function parameters; the
ProseMirror document engine (positions, `resolve`, `slice`, `replaceWith`,
`setNodeMarkup`) is modelled explicitly on a tree of typed nodes with the
standard ProseMirror position arithmetic (leaf = 1 token, element = content
size + 2 tokens, text = its length).
-/

set_option maxHeartbeats 1000000
set_option maxRecDepth 16384

namespace Commently


/-! ## JavaScript string primitives

The `\s` regex class and `String.prototype.trim` use the same whitespace set
(ASCII whitespace, NBSP, Unicode space separators, line separators, BOM). -/

def jsWhitespaceCodes : List Nat :=
  [9, 10, 11, 12, 13, 32, 0xA0, 0x1680, 0x2000, 0x2001, 0x2002, 0x2003,
   0x2004, 0x2005, 0x2006, 0x2007, 0x2008, 0x2009, 0x200A, 0x2028, 0x2029,
   0x202F, 0x205F, 0x3000, 0xFEFF]


def isJsSpaceU (u : Nat) : Bool := jsWhitespaceCodes.contains u


def isJsSpace (c : Char) : Bool := isJsSpaceU c.toNat


def jsTrimList (l : List Char) : List Char :=
  ((l.dropWhile isJsSpace).reverse.dropWhile isJsSpace).reverse


/-- JavaScript `String.prototype.trim`. -/
def jsTrim (s : String) : String := String.mk (jsTrimList s.toList)


/-- JavaScript `/\s/.test`. -/
def hasJsSpace (s : String) : Bool := s.toList.any isJsSpace


/-- JavaScript `text.indexOf("\n") >= 0`. -/
def containsNl (s : String) : Bool := s.toList.any (fun c => c = Char.ofNat 10)


def jsTrimUnits (l : List Nat) : List Nat :=
  ((l.dropWhile isJsSpaceU).reverse.dropWhile isJsSpaceU).reverse


/-! ## Text sanitizer (`src/utils/string.ts`) -/

/-- `SAFE_TEXT_RANGES` from `src/utils/string.ts`: allowed Unicode ranges
(normal literature-style text + emoji; newlines allowed). -/
def SAFE_TEXT_RANGES : List (Nat × Nat) :=
  [(0x000a, 0x000a), (0x000d, 0x000d), (0x0020, 0x007e), (0x00a0, 0x00ff),
   (0x0100, 0x017f), (0x0180, 0x024f), (0x0370, 0x03ff), (0x0400, 0x04ff),
   (0x1e00, 0x1eff), (0x2000, 0x206f), (0x20a0, 0x20cf), (0x2100, 0x214f),
   (0x2150, 0x218f), (0x2190, 0x21ff), (0x2600, 0x26ff), (0x2700, 0x27bf),
   (0x1f300, 0x1f5ff), (0x1f600, 0x1f64f), (0x1f680, 0x1f6ff),
   (0x1f900, 0x1f9ff)]


/-- `STRIP_CODE_POINTS`: decorative characters stripped even when in safe
ranges (DOUBLE LOW LINE). -/
def STRIP_CODE_POINTS : List Nat := [0x2017]


/-- `isAllowedCodePoint` from `src/utils/string.ts`. -/
def isAllowedCodePoint (cp : Nat) : Bool :=
  if STRIP_CODE_POINTS.contains cp then false
  else SAFE_TEXT_RANGES.any (fun r => decide (r.1 ≤ cp) && decide (cp ≤ r.2))


def isSurrogateLead (u : Nat) : Bool := decide (0xD800 ≤ u) && decide (u ≤ 0xDBFF)


def isSurrogateTrail (u : Nat) : Bool := decide (0xDC00 ≤ u) && decide (u ≤ 0xDFFF)


/-- The code-point computation of `getCodePoint` for a surrogate pair:
`(lead - 0xd800) * 0x400 + (trail - 0xdc00) + 0x10000`. -/
def decodeSurrogatePair (lead trail : Nat) : Nat :=
  (lead - 0xD800) * 0x400 + (trail - 0xDC00) + 0x10000


/-- `filterToSafeText` from `src/utils/string.ts`, on UTF-16 code units.
Each loop step decodes one code point via `getCodePoint` (a lead surrogate
followed by a trail surrogate forms one astral code point, anything else is
taken as a single unit), keeps its 1 or 2 units if the code point is allowed,
and advances past it. -/
def filterToSafeText : List Nat → List Nat
  | [] => []
  | [u] => if isAllowedCodePoint u then [u] else []
  | u :: v :: rest2 =>
    if isSurrogateLead u && isSurrogateTrail v then
      if isAllowedCodePoint (decodeSurrogatePair u v) then
        u :: v :: filterToSafeText rest2
      else filterToSafeText rest2
    else if isAllowedCodePoint u then u :: filterToSafeText (v :: rest2)
    else filterToSafeText (v :: rest2)


/-- A code-unit list is sanitized when it is a sequence of allowed code
points: each unit is either a non-surrogate unit whose code point is allowed,
or the start of a proper surrogate pair whose decoded astral code point is
allowed.  This is exactly the shape `filterToSafeText` guarantees: no
disallowed code point survives and no surrogate pair is split. -/
inductive SanitizedText : List Nat → Prop where
  | nil : SanitizedText []
  | single (u : Nat) (rest : List Nat)
      (ha : isAllowedCodePoint u = true)
      (hlead : isSurrogateLead u = false)
      (htrail : isSurrogateTrail u = false) :
      SanitizedText rest → SanitizedText (u :: rest)
  | pair (u v cp : Nat) (rest : List Nat)
      (hu : isSurrogateLead u = true)
      (hv : isSurrogateTrail v = true)
      (hcp : cp = decodeSurrogatePair u v)
      (ha : isAllowedCodePoint cp = true) :
      SanitizedText rest → SanitizedText (u :: v :: rest)


/-! ### Blank-line handling (`isBlankLine`, `cleanupMarkdownOutput`) -/

/-- One step of `/&nbsp;/gi` matching: does the list start with the six code
units of the entity, any letter case (`&` `n` `b` `s` `p` `;`)? -/
def isNbspEntityAt : List Nat → Bool
  | a :: b :: c :: d :: e :: f :: _ =>
    a == 38 && (b == 110 || b == 78) && (c == 98 || c == 66) &&
    (d == 115 || d == 83) && (e == 112 || e == 80) && f == 59
  | _ => false


/-- `line.replace(/&nbsp;/gi, "")`: a single left-to-right pass removing
non-overlapping case-insensitive occurrences of the entity.  On lists shorter
than six units no occurrence can start, so they pass through unchanged. -/
def stripNbspEntity : List Nat → List Nat
  | a :: b :: c :: d :: e :: f :: rest =>
    if isNbspEntityAt (a :: b :: c :: d :: e :: f :: rest) then
      stripNbspEntity rest
    else a :: stripNbspEntity (b :: c :: d :: e :: f :: rest)
  | l => l


/-- `isBlankLine` from `src/utils/string.ts`: strip U+00A0 characters, then
the `&nbsp;` entity, then trim; blank iff nothing remains. -/
def isBlankLine (line : List Nat) : Bool :=
  (jsTrimUnits (stripNbspEntity (line.filter (fun u => u ≠ 0xA0)))).isEmpty


/-- JavaScript `markdown.split("\n")` on code units (always returns at least
one piece; a trailing separator yields a trailing empty piece). -/
def splitOnLF : List Nat → List (List Nat)
  | [] => [[]]
  | u :: rest =>
    if u = 10 then [] :: splitOnLF rest
    else
      match splitOnLF rest with
      | [] => [[u]]
      | h :: t => (u :: h) :: t


/-- `result.join("\n")` on code units. -/
def joinLF : List (List Nat) → List Nat
  | [] => []
  | [l] => l
  | l :: l2 :: rest => l ++ 10 :: joinLF (l2 :: rest)


/-- The blank-run collapse loop of `cleanupMarkdownOutput` (`inBlankRun`
state machine): a run of blank lines becomes a single empty line, non-blank
lines pass through unchanged. -/
def collapseBlankLines (inBlankRun : Bool) : List (List Nat) → List (List Nat)
  | [] => []
  | l :: rest =>
    if isBlankLine l then
      if inBlankRun then collapseBlankLines true rest
      else [] :: collapseBlankLines true rest
    else l :: collapseBlankLines false rest


/-- `cleanupMarkdownOutput` from `src/utils/string.ts`: filter to safe text,
split into lines, collapse runs of blank lines, join back. -/
def cleanupMarkdownOutput (markdown : List Nat) : List Nat :=
  joinLF (collapseBlankLines false (splitOnLF (filterToSafeText markdown)))


/-! ## URL recognizer (`src/embed.ts`) -/

/-- The single embed provider of `src/embed.ts` (`type EmbedProvider = "generic"`). -/
inductive EmbedProvider where
  | generic
deriving DecidableEq, Repr


structure EmbedUrlResult where
  embedUrl : String
  provider : EmbedProvider
deriving DecidableEq, Repr


/-- The observable result of the WHATWG `new URL(...)` collaborator: its
`protocol` and its re-serialized `href`.  A `none` result models the
constructor throwing (caught by the source's `try/catch`). -/
structure URLRec where
  protocol : String
  href : String


/-- `URL_PATTERN = /^https?:\/\/[^\s]+$/`: the whole string is `http://` or
`https://` followed by at least one character, with no whitespace anywhere
after the scheme (the scheme itself contains none). -/
def strStartsWith (s p : String) : Bool := decide (s.toList.take p.length = p.toList)


def matchesUrlPattern (s : String) : Bool :=
  let check : Nat → Bool := fun n =>
    let rest := s.toList.drop n
    decide (rest ≠ []) && rest.all (fun c => !isJsSpace c)
  if strStartsWith s "https://" then check 8
  else if strStartsWith s "http://" then check 7
  else false


/-- `parseEmbedUrl` from `src/embed.ts`.  `jsURL` is the WHATWG URL-parser
collaborator.  Returns the re-serialized URL with provider `generic` for any
accepted single-token http(s) URL, otherwise `null` — it cannot throw: the
source wraps the only throwing call in `try/catch`. -/
def parseEmbedUrl (jsURL : String → Option URLRec) (input : String) :
    Option EmbedUrlResult :=
  let raw := jsTrim input
  if raw.isEmpty then none
  else if !matchesUrlPattern raw then none
  else
    match jsURL (if strStartsWith raw "http" then raw else "https://" ++ raw) with
    | none => none
    | some u =>
      if u.protocol = "https:" ∨ u.protocol = "http:" then
        some ⟨u.href, .generic⟩
      else none


/-- A fixed realistic URL collaborator used to instantiate theorems about the
recognizer on concrete inputs: parses nothing, just reports scheme `https:`
and echoes its input as `href` (the behavior of the WHATWG parser on an
already-normalized https URL). -/
def jsURLStub : String → Option URLRec := fun s => some ⟨"https:", s⟩


/-! ## Markdown likelihood heuristic (`looksLikeMarkdown`)

Each regex of the source is modelled as a decidable matcher.  A `/m`-anchored
`^` matches at the string start and after every line terminator.  A greedy
character class `[^x]+` followed by the literal `x` can only match as the
maximal run (stopping earlier puts a non-`x` character where `x` is
required), so each matcher takes the maximal run and inspects what follows. -/

def isLineTerm (c : Char) : Bool :=
  c.toNat = 10 || c.toNat = 13 || c.toNat = 0x2028 || c.toNat = 0x2029


def anyLineStartAux (p : List Char → Bool) : List Char → Bool
  | [] => false
  | c :: rest => (isLineTerm c && p rest) || anyLineStartAux p rest


/-- Test `p` at every `/m` line start (string start and after each line
terminator). -/
def anyLineStart (p : List Char → Bool) (l : List Char) : Bool :=
  p l || anyLineStartAux p l


/-- Test `p` at every position of the string. -/
def anySuffix (p : List Char → Bool) : List Char → Bool
  | [] => p []
  | c :: rest => p (c :: rest) || anySuffix p rest


/-- Test `p` at every position, also passing the preceding character (for
look-behind). -/
def anySuffixWithPrev (p : Option Char → List Char → Bool) :
    Option Char → List Char → Bool
  | prev, [] => p prev []
  | prev, c :: rest => p prev (c :: rest) || anySuffixWithPrev p (some c) rest


/-- `^#{1,6}\s+` at a line start. -/
def headingAt (l : List Char) : Bool :=
  let n := (l.takeWhile (fun c => c = '#')).length
  decide (1 ≤ n) && decide (n ≤ 6) &&
    (match l.drop n with
     | c :: _ => isJsSpace c
     | [] => false)


/-- `dd[^d]+dd` at this position (`d` doubled): the bold patterns
`\*\*[^*]+\*\*` and `__[^_]+__`. -/
def delimPairAt (d : Char) (l : List Char) : Bool :=
  match l with
  | a :: b :: rest =>
    a = d && b = d &&
      (let run := rest.takeWhile (fun c => c ≠ d)
       decide (run.length ≥ 1) &&
       (match rest.drop run.length with
        | c :: e :: _ => c = d && e = d
        | _ => false))
  | _ => false


/-- `(?<!d)d[^d]+d(?!d)` at this position: the italic patterns with single
`*` or `_` delimiters not adjacent to a second delimiter. -/
def singleDelimAt (d : Char) (prev : Option Char) (l : List Char) : Bool :=
  match l with
  | a :: rest =>
    a = d && decide (prev ≠ some d) &&
      (let run := rest.takeWhile (fun c => c ≠ d)
       decide (run.length ≥ 1) &&
       (match rest.drop run.length with
        | c :: tail =>
          c = d && (match tail with
                    | e :: _ => decide (e ≠ d)
                    | [] => true)
        | [] => false))
  | [] => false


/-- `^[\s]*[-*]\s+` at a line start. -/
def listMarkerAt (l : List Char) : Bool :=
  match l.dropWhile isJsSpace with
  | c :: e :: _ => (c = '-' || c = '*') && isJsSpace e
  | _ => false


/-- `^[\s]*\d+\.\s+` at a line start. -/
def numberedListAt (l : List Char) : Bool :=
  let rest := l.dropWhile isJsSpace
  let ds := rest.takeWhile (fun c => c.isDigit)
  decide (ds.length ≥ 1) &&
    (match rest.drop ds.length with
     | c :: e :: _ => c = '.' && isJsSpace e
     | _ => false)


/-- `\[[^\]]+\]\([^)]+\)` at this position. -/
def linkAt (l : List Char) : Bool :=
  match l with
  | a :: rest =>
    a = '[' &&
      (let run := rest.takeWhile (fun c => c ≠ ']')
       decide (run.length ≥ 1) &&
       (match rest.drop run.length with
        | b :: c :: rest2 =>
          b = ']' && c = '(' &&
            (let run2 := rest2.takeWhile (fun c2 => c2 ≠ ')')
             decide (run2.length ≥ 1) &&
             (match rest2.drop run2.length with
              | e :: _ => e = ')'
              | [] => false))
        | _ => false))
  | [] => false


/-- The backtick character, U+0060. -/
def btick : Char := Char.ofNat 96


/-- Inline code: backtick, one or more non-backticks, backtick. -/
def codeAt (l : List Char) : Bool :=
  match l with
  | a :: rest =>
    a = btick &&
      (let run := rest.takeWhile (fun c => c ≠ btick)
       decide (run.length ≥ 1) &&
       (match rest.drop run.length with
        | b :: _ => b = btick
        | [] => false))
  | [] => false


/-- `^>\s+` at a line start. -/
def quoteAt (l : List Char) : Bool :=
  match l with
  | c :: e :: _ => c = '>' && isJsSpace e
  | _ => false


/-- Does the list contain three consecutive backticks anywhere? -/
def containsTripleBtick : List Char → Bool
  | a :: b :: c :: rest =>
    (a = btick && b = btick && c = btick) || containsTripleBtick (b :: c :: rest)
  | _ => false


/-- A fenced code block start at a line start: three backticks, anything
(`[\s\S]*`), then three backticks. -/
def fenceAt (l : List Char) : Bool :=
  match l with
  | a :: b :: c :: rest =>
    a = btick && b = btick && c = btick && containsTripleBtick rest
  | _ => false


/-- `looksLikeMarkdown` from the editor module.  The length guard uses the
code-point count where JavaScript counts UTF-16 units; the only inputs where
the two disagree on `length < 2` are single astral code points, on which
every pattern below also fails, so the function value is unchanged. -/
def looksLikeMarkdown (text : String) : Bool :=
  let t := jsTrim text
  if t.isEmpty || decide (t.length < 2) then false
  else
    let l := t.toList
    anyLineStart headingAt l ||
    (anySuffix (delimPairAt '*') l || anySuffix (delimPairAt '_') l) ||
    (anySuffixWithPrev (singleDelimAt '*') none l ||
      anySuffixWithPrev (singleDelimAt '_') none l) ||
    (anyLineStart listMarkerAt l || anyLineStart numberedListAt l) ||
    anySuffix linkAt l ||
    anySuffix codeAt l ||
    anyLineStart quoteAt l ||
    anyLineStart fenceAt l


/-! ## Heading level clamp (`clampHeadingLevel`) -/

/-- `clampHeadingLevel(level, allowed)` from the editor module: identity on
the empty set and on members; below the minimum clamps to `Math.min`, above
the maximum to `Math.max`; otherwise the `reduce` picks the first element at
minimal `Math.abs` distance. -/
def clampHeadingLevel (level : Int) (allowed : List Int) : Int :=
  match allowed with
  | [] => level
  | a :: rest =>
    if (a :: rest).contains level then level
    else if level < rest.foldl min a then rest.foldl min a
    else if rest.foldl max a < level then rest.foldl max a
    else rest.foldl (fun prev curr =>
      if (curr - level).natAbs < (prev - level).natAbs then curr else prev) a


/-- One merge step of the spec's nearest-with-earlier-tie rule. -/
def nearCombine (level a : Int) : Option Int → Int
  | none => a
  | some b => if (b - level).natAbs < (a - level).natAbs then b else a


/-- Modelled from the spec's words: "return the nearest allowed value; ties
(equal distance above and below) resolve to the smaller/earlier level in the
allowed set's iteration order" — the head of the list wins a tie against
anything later, and `none` on the empty set. -/
def nearestAllowed (level : Int) : List Int → Option Int
  | [] => none
  | a :: rest => some (nearCombine level a (nearestAllowed level rest))


/-! ## Parsed content trees (`JSONContent`) and `normalizeHeadingLevelsInContent`

`JSONContent` from the editor module: `{type?, attrs?, content?}`.  An absent
`attrs` object and an empty one are indistinguishable to every operation here
(the guard `node.attrs && typeof node.attrs.level === "number"` fails on
both), as are an absent `content` array and an empty one (`content?.forEach`),
so both are modelled by the empty list. -/

inductive JVal where
  | num (n : Int)
  | str (s : String)
  | boolv (b : Bool)
  | nullv
deriving DecidableEq, Repr


mutual
inductive JSONContent where
  | mk (ty : Option String) (attrs : List (String × JVal)) (content : JList)
deriving DecidableEq, Repr
inductive JList where
  | nil
  | cons (hd : JSONContent) (tl : JList)
deriving DecidableEq, Repr
end


/-- Reading `attrs.level` and checking `typeof ... === "number"`: the first
entry for the key, if it is a number. -/
def getNumAttr (attrs : List (String × JVal)) (k : String) : Option Int :=
  match attrs.find? (fun kv => kv.1 == k) with
  | some (_, JVal.num n) => some n
  | _ => none


/-- The JavaScript object update `{...attrs, key: v}`: an existing key keeps
its position and gets the new value, a fresh key is appended. -/
def jsObjSet : List (String × JVal) → String → JVal → List (String × JVal)
  | [], k, v => [(k, v)]
  | (k0, v0) :: rest, k, v =>
    if k0 = k then (k, v) :: rest
    else (k0, v0) :: jsObjSet rest k v


mutual
/-- `normalizeHeadingLevelsInContent` from the editor module: clamp the level
of every heading node (recursively), touch nothing else. -/
def normalizeHeadingLevelsInContent (node : JSONContent) (allowed : List Int) :
    JSONContent :=
  match node with
  | .mk ty attrs content =>
    .mk ty
      (if ty = some "heading" then
        match getNumAttr attrs "level" with
        | some lv => jsObjSet attrs "level" (.num (clampHeadingLevel lv allowed))
        | none => attrs
      else attrs)
      (normalizeJList content allowed)
def normalizeJList (l : JList) (allowed : List Int) : JList :=
  match l with
  | .nil => .nil
  | .cons hd tl =>
    .cons (normalizeHeadingLevelsInContent hd allowed) (normalizeJList tl allowed)
end


mutual
/-- Every heading node of the tree that carries a numeric `level` attribute
has it inside `allowed`. -/
def headingsNormalized (allowed : List Int) : JSONContent → Bool
  | .mk ty attrs content =>
    (if ty = some "heading" then
      match getNumAttr attrs "level" with
      | some lv => allowed.contains lv
      | none => true
    else true) && headingsNormalizedL allowed content
def headingsNormalizedL (allowed : List Int) : JList → Bool
  | .nil => true
  | .cons hd tl => headingsNormalized allowed hd && headingsNormalizedL allowed tl
end


mutual
/-- The spec's data-model invariant for parsed trees: every heading node
carries a numeric `level` attribute. -/
def wellLeveled : JSONContent → Bool
  | .mk ty attrs content =>
    (if ty = some "heading" then (getNumAttr attrs "level").isSome else true) &&
    wellLeveledL content
def wellLeveledL : JList → Bool
  | .nil => true
  | .cons hd tl => wellLeveled hd && wellLeveledL tl
end


mutual
/-- Erase the one datum `normalizeHeadingLevelsInContent` may write — the
numeric `level` value of a heading — by overwriting it with `0`.  Two trees
with equal masks agree on everything else: node types, all attributes of
non-heading nodes, all non-`level` attributes of headings, and the whole
tree shape. -/
def maskLevels : JSONContent → JSONContent
  | .mk ty attrs content =>
    .mk ty
      (if ty = some "heading" then
        match getNumAttr attrs "level" with
        | some _ => jsObjSet attrs "level" (.num 0)
        | none => attrs
      else attrs)
      (maskLevelsL content)
def maskLevelsL : JList → JList
  | .nil => .nil
  | .cons hd tl => .cons (maskLevels hd) (maskLevelsL tl)
end


/-! ## The document engine model (ProseMirror positions)

An ordered tree of typed nodes.  Standard ProseMirror position arithmetic:
a text node occupies as many tokens as its length, an atom leaf node (such
as `embed`, `image`, `horizontalRule`) occupies 1 token, and an element node
occupies its content size plus 2 (an opening and a closing token).  Document
positions are relative to the document's content, so a document is a
fragment `PMFrag`. -/

mutual
inductive PMNode where
  | text (s : String)
  | leaf (typeName : String) (attrs : List (String × JVal))
  | elem (typeName : String) (attrs : List (String × JVal)) (content : PMFrag)
deriving DecidableEq, Repr
inductive PMFrag where
  | nil
  | cons (hd : PMNode) (tl : PMFrag)
deriving DecidableEq, Repr
end


mutual
def nodeSize : PMNode → Nat
  | .text s => s.length
  | .leaf _ _ => 1
  | .elem _ _ content => 2 + fragSize content
def fragSize : PMFrag → Nat
  | .nil => 0
  | .cons hd tl => nodeSize hd + fragSize tl
end


def nodeTypeName : PMNode → String
  | .text _ => "text"
  | .leaf n _ => n
  | .elem n _ _ => n


def nodeAttrs : PMNode → List (String × JVal)
  | .text _ => []
  | .leaf _ a => a
  | .elem _ a _ => a


/-- `node.content.size`: text and leaf nodes have empty content. -/
def nodeContentSize : PMNode → Nat
  | .text _ => 0
  | .leaf _ _ => 0
  | .elem _ _ content => fragSize content


mutual
def nodeTextContent : PMNode → String
  | .text s => s
  | .leaf _ _ => ""
  | .elem _ _ content => fragTextContent content
def fragTextContent : PMFrag → String
  | .nil => ""
  | .cons hd tl => nodeTextContent hd ++ fragTextContent tl
end


def fragAppend : PMFrag → PMFrag → PMFrag
  | .nil, b => b
  | .cons hd tl, b => .cons hd (fragAppend tl b)


mutual
/-- `doc.resolve(pos)`: the chain of element nodes strictly containing the
position, outermost first, each paired with the position just before it
(`$pos.before(depth)`).  The document itself (depth 0) is not included; an
empty chain means the position sits directly between top-level nodes. -/
def resolveFrames : PMFrag → Nat → Nat → List (PMNode × Nat)
  | .nil, _, _ => []
  | .cons c rest, start, pos =>
    if pos ≤ start then []
    else if pos < start + nodeSize c then resolveInto c start pos
    else resolveFrames rest (start + nodeSize c) pos
/-- Entering the node containing the position: a text or leaf node adds no
frame (its parent is the innermost ancestor), an element node adds itself
and resolution continues in its content. -/
def resolveInto (c : PMNode) (start pos : Nat) : List (PMNode × Nat) :=
  match c with
  | .elem n a content =>
    (PMNode.elem n a content, start) :: resolveFrames content (start + 1) pos
  | _ => []
end


/-- `NESTED_BLOCK_NAMES` from `src/embed.ts`. -/
def NESTED_BLOCK_NAMES : List String :=
  ["blockquote", "bulletList", "orderedList", "listItem"]


/-- `isInsideNestedBlock($pos)`: some ancestor at depth 1..$pos.depth is a
blockquote, list, or list item. -/
def isInsideNestedBlockFrames (frames : List (PMNode × Nat)) : Bool :=
  frames.any (fun f => NESTED_BLOCK_NAMES.contains (nodeTypeName f.1))


/-- `$pos.parent`: the innermost frame's node, or the document when the
position resolves at depth 0 (the document node is then rebuilt from the
fragment). -/
def framesParent (doc : PMFrag) (frames : List (PMNode × Nat)) : PMNode :=
  match frames.getLast? with
  | some f => f.1
  | none => .elem "doc" [] doc


mutual
/-- `Fragment.cut` relative to this fragment: keep what lies between `f` and
`t`, cutting partially covered element nodes open (ProseMirror's
`Node.slice(from, to).content` for the document fragment). -/
def fragCut : PMFrag → Nat → Nat → PMFrag
  | .nil, _, _ => .nil
  | .cons c rest, f, t =>
    if t = 0 then .nil
    else if nodeSize c ≤ f then fragCut rest (f - nodeSize c) (t - nodeSize c)
    else if f = 0 ∧ nodeSize c ≤ t then
      .cons c (fragCut rest 0 (t - nodeSize c))
    else .cons (nodeCut c f (min t (nodeSize c))) (fragCut rest 0 (t - nodeSize c))
def nodeCut : PMNode → Nat → Nat → PMNode
  | .text s, f, t => .text (String.mk ((s.toList.drop f).take (t - f)))
  | .leaf n a, _, _ => .leaf n a
  | .elem n a content, f, t => .elem n a (fragCut content (f - 1) (t - 1))
end


/-- `tr.replaceWith(from, to, node)` on the document fragment: everything
before `from`, the node, everything from `to` on. -/
def replaceRangeFrag (doc : PMFrag) (f t : Nat) (node : PMNode) : PMFrag :=
  fragAppend (fragCut doc 0 f) (.cons node (fragCut doc t (fragSize doc)))


/-- `tr.insert(pos, node)` on the document fragment. -/
def insertAtFrag (doc : PMFrag) (pos : Nat) (node : PMNode) : PMFrag :=
  fragAppend (fragCut doc 0 pos) (.cons node (fragCut doc pos (fragSize doc)))


mutual
/-- `doc.descendants`, projected to what the heading normalizer inspects:
for every node (in visit order), its position, type name and attributes. -/
def fragDescendants : PMFrag → Nat → List (Nat × String × List (String × JVal))
  | .nil, _ => []
  | .cons c rest, start =>
    (start, nodeTypeName c, nodeAttrs c) :: nodeDescendants c start ++
      fragDescendants rest (start + nodeSize c)
def nodeDescendants : PMNode → Nat → List (Nat × String × List (String × JVal))
  | .text _, _ => []
  | .leaf _ _, _ => []
  | .elem _ _ content, start => fragDescendants content (start + 1)
end


def setNodeAttrs (node : PMNode) (attrs : List (String × JVal)) : PMNode :=
  match node with
  | .text s => .text s
  | .leaf n _ => .leaf n attrs
  | .elem n _ content => .elem n attrs content


mutual
/-- `tr.setNodeMarkup(pos, undefined, attrs)`: replace the attributes of the
node that starts exactly at `pos`, keeping its type and content. -/
def setNodeMarkupFrag (frag : PMFrag) (start pos : Nat)
    (attrs : List (String × JVal)) : PMFrag :=
  match frag with
  | .nil => .nil
  | .cons c rest =>
    if pos = start then .cons (setNodeAttrs c attrs) rest
    else if pos < start + nodeSize c then
      .cons (setNodeMarkupNode c start pos attrs) rest
    else .cons c (setNodeMarkupFrag rest (start + nodeSize c) pos attrs)
def setNodeMarkupNode (node : PMNode) (start pos : Nat)
    (attrs : List (String × JVal)) : PMNode :=
  match node with
  | .text s => .text s
  | .leaf n a => .leaf n a
  | .elem n a content => .elem n a (setNodeMarkupFrag content (start + 1) pos attrs)
end


/-! ## Paste and keydown handlers of the `Embed` node (`src/embed.ts`) -/

/-- `extractUrlFromPastedText`'s regex body, also the search step of
`extractUrlAnywhereInText`: match `(https?:\/\/[^\s]+)` at the start of `s`
(scheme, then the maximal non-whitespace run, which must be non-empty). -/
def matchUrlCandidate (s : String) : Option String :=
  let n : Option Nat :=
    if strStartsWith s "https://" then some 8
    else if strStartsWith s "http://" then some 7
    else none
  match n with
  | none => none
  | some k =>
    let run := (s.toList.drop k).takeWhile (fun c => !isJsSpace c)
    if run.isEmpty then none
    else some (String.mk (s.toList.take k ++ run))


/-- `extractUrlFromPastedText` from `src/embed.ts`: a single http(s) URL at
the very start of the trimmed text. -/
def extractUrlFromPastedText (text : String) : Option String :=
  let trimmed := jsTrim text
  if trimmed.isEmpty then none
  else matchUrlCandidate trimmed


def extractUrlAnywhereAux : List Char → Option String
  | [] => none
  | c :: rest =>
    match matchUrlCandidate (String.mk (c :: rest)) with
    | some u => some u
    | none => extractUrlAnywhereAux rest


/-- `extractUrlAnywhereInText` from `src/embed.ts`: the first http(s) URL
found anywhere in the trimmed text. -/
def extractUrlAnywhereInText (text : String) : Option String :=
  let trimmed := jsTrim text
  if trimmed.isEmpty then none
  else extractUrlAnywhereAux trimmed.toList


/-- `extractUrlFromHtml` from `src/embed.ts`.  `htmlAnchor` is the
`DOMParser`/`querySelector` collaborator returning the `href` of the first
anchor whose target starts with http(s); `none` also covers a parser throw. -/
def extractUrlFromHtml (htmlAnchor : String → Option String) (html : String) :
    Option String :=
  if (jsTrim html).isEmpty then none
  else
    match htmlAnchor html with
    | some href => some (jsTrim href)
    | none => none


/-- The clipboard payload: `getData` yields `""` for an absent type. -/
structure Clipboard where
  plain : String
  html : String


def providerName : EmbedProvider → String
  | .generic => "generic"


/-- The attributes of `nodeType.create({src, provider, originalUrl})`. -/
def embedAttrs (src : String) (provider : EmbedProvider) (originalUrl : String) :
    List (String × JVal) :=
  [("src", .str src), ("provider", .str (providerName provider)),
   ("originalUrl", .str originalUrl)]


/-- The `hasMeaningfulContent` loop of `handlePaste`: a slice child is
meaningful if it is a text node with non-blank text, or any other node with
non-empty content. -/
def fragHasMeaningfulContent : PMFrag → Bool
  | .nil => false
  | .cons node rest =>
    (match node with
     | .text s => !(jsTrim s).isEmpty
     | other => decide (nodeContentSize other > 0)) ||
    fragHasMeaningfulContent rest


/-- The local `text` of `handlePaste`: the trimmed plain-text payload, or —
when that is empty, multi-line, or contains whitespace — the URL recovered
from the HTML payload when there is one. -/
def pasteEffectiveText (htmlAnchor : String → Option String) (clip : Clipboard) :
    String :=
  if (jsTrim clip.plain).isEmpty || containsNl (jsTrim clip.plain) ||
      hasJsSpace (jsTrim clip.plain) then
    match extractUrlFromHtml htmlAnchor (jsTrim clip.html) with
    | some u => u
    | none => jsTrim clip.plain
  else jsTrim clip.plain


/-- The local `urlToEmbed` of `handlePaste`: URL at the start of the text,
else URL anywhere in the text, else the whole text when it is a single
token, else the empty string. -/
def pasteUrlCandidate (text : String) : String :=
  match extractUrlFromPastedText text with
  | some u => u
  | none =>
    match extractUrlAnywhereInText text with
    | some u => u
    | none => if !containsNl text && !hasJsSpace text then text else ""


/-- `$from.depth === 0 ? 0 : $from.before($from.depth)`: an empty frame
chain is depth 0. -/
def pasteFromPos (doc : PMFrag) (selFrom : Nat) : Nat :=
  match (resolveFrames doc 0 selFrom).getLast? with
  | none => 0
  | some fr => fr.2


/-- `$to.depth === 0 ? state.doc.content.size : $to.after($to.depth)`. -/
def pasteToPos (doc : PMFrag) (selTo : Nat) : Nat :=
  match (resolveFrames doc 0 selTo).getLast? with
  | none => fragSize doc
  | some fr => fr.2 + nodeSize fr.1


/-- The `handlePaste` of the `Embed` plugin in `src/embed.ts`.  `none` models
`return false` (event not consumed, nothing dispatched); `some d` models
`return true` after dispatching the single transaction whose resulting
document content is `d`. -/
def handlePaste (jsURL : String → Option URLRec)
    (htmlAnchor : String → Option String) (clipboardData : Option Clipboard)
    (doc : PMFrag) (selFrom selTo : Nat) : Option PMFrag :=
  match clipboardData with
  | none => none
  | some clip =>
    if (pasteEffectiveText htmlAnchor clip).isEmpty then none
    else if hasJsSpace (pasteUrlCandidate (pasteEffectiveText htmlAnchor clip)) then
      none
    else
      match parseEmbedUrl jsURL (pasteUrlCandidate (pasteEffectiveText htmlAnchor clip)) with
      | none => none
      | some parsed =>
        if isInsideNestedBlockFrames (resolveFrames doc 0 selFrom) ||
            isInsideNestedBlockFrames (resolveFrames doc 0 selTo) then none
        else if fragHasMeaningfulContent
            (fragCut doc (pasteFromPos doc selFrom) (pasteToPos doc selTo)) then none
        else
          some (replaceRangeFrag doc (pasteFromPos doc selFrom) (pasteToPos doc selTo)
            (.leaf "embed"
              (embedAttrs parsed.embedUrl parsed.provider
                (pasteUrlCandidate (pasteEffectiveText htmlAnchor clip)))))


inductive KeyOutcome where
  | notHandled
  | handled (newDoc : PMFrag) (cursor : Nat)
  | thrown (msg : String)
deriving DecidableEq, Repr


/-- The `handleKeyDown` of the `Embed` plugin in `src/embed.ts`.  The
position-zero branch of the source reads `tr` inside its own
`const tr = ...` initializer (`TextSelection.near(tr.doc.resolve(1))`), a
temporal-dead-zone access that raises a `ReferenceError` before anything is
dispatched, so that branch is a thrown fault; `$from.before(0)` at depth 0
likewise raises a `RangeError` in the engine.  `handled d cursor` models
`return true` after dispatching one transaction with resulting content `d`
and the cursor then placed at `from + 2`. -/
def handleKeyDown (jsURL : String → Option URLRec) (doc : PMFrag)
    (selFrom : Nat) (key : String) : KeyOutcome :=
  if key ≠ "Enter" then .notHandled
  else if selFrom = 0 then .thrown "ReferenceError"
  else
    let frames := resolveFrames doc 0 selFrom
    if isInsideNestedBlockFrames frames then .notHandled
    else
      let text := jsTrim (nodeTextContent (framesParent doc frames))
      if text.isEmpty then .notHandled
      else
        match parseEmbedUrl jsURL text with
        | none => .notHandled
        | some parsed =>
          match frames.getLast? with
          | none => .thrown "RangeError"
          | some fr =>
            let d1 := replaceRangeFrag doc fr.2 (fr.2 + nodeSize fr.1)
              (.leaf "embed" (embedAttrs parsed.embedUrl parsed.provider text))
            let d2 := insertAtFrag d1 (fr.2 + 1) (.elem "paragraph" [] .nil)
            .handled d2 (fr.2 + 2)


/-! ## The `MarkdownCopy` copy handler (editor module) -/

structure CopyResult where
  handled : Bool
  clipboardText : Option (List Nat)
  docAfter : PMFrag


/-- The `copy` handler of the `MarkdownCopy` extension: decline on an empty
selection, a missing markdown serializer, or a zero-size slice; otherwise
serialize the slice (collaborator `serialize`), sanitize it, write it to the
clipboard as `text/plain` and consume the event.  The handler never
dispatches a transaction, so `docAfter` is always the incoming document. -/
def markdownCopyHandler (serialize : PMFrag → List Nat) (hasMarkdown : Bool)
    (doc : PMFrag) (selFrom selTo : Nat) : CopyResult :=
  if selFrom = selTo || !hasMarkdown then ⟨false, none, doc⟩
  else if fragSize (fragCut doc selFrom selTo) = 0 then ⟨false, none, doc⟩
  else
    ⟨true, some (cleanupMarkdownOutput (serialize (fragCut doc selFrom selTo))), doc⟩


/-! ## `normalizeDocHeadingLevels` (editor module) -/

/-- The `doc.descendants` collection pass: every heading node whose numeric
`level` is below `minLevel`, with its position and its patched attributes
`{...node.attrs, level: minLevel}`. -/
def headingUpdateOf (minLevel : Int)
    (e : Nat × String × List (String × JVal)) :
    Option (Nat × List (String × JVal)) :=
  if e.2.1 = "heading" then
    match getNumAttr e.2.2 "level" with
    | some lv =>
      if lv < minLevel then some (e.1, jsObjSet e.2.2 "level" (.num minLevel))
      else none
    | none => none
  else none


def collectHeadingUpdates (doc : PMFrag) (minLevel : Int) :
    List (Nat × List (String × JVal)) :=
  (fragDescendants doc 0).filterMap (headingUpdateOf minLevel)


/-- Insertion sort by descending position: `updates.sort((a, b) => b.pos - a.pos)`. -/
def insertByPosDesc (u : Nat × List (String × JVal)) :
    List (Nat × List (String × JVal)) → List (Nat × List (String × JVal))
  | [] => [u]
  | v :: rest => if v.1 ≤ u.1 then u :: v :: rest else v :: insertByPosDesc u rest


def sortByPosDesc : List (Nat × List (String × JVal)) →
    List (Nat × List (String × JVal))
  | [] => []
  | u :: rest => insertByPosDesc u (sortByPosDesc rest)


/-- `normalizeDocHeadingLevels` from the editor module: collect every heading
below the minimum allowed level, and if there is any, apply all the attribute
rewrites in descending position order in one transaction (`none` models "no
transaction dispatched", `some d` the single dispatched transaction's
result). -/
def docMinLevel (allowed : List Int) : Int :=
  match allowed with
  | [] => 1
  | a :: rest => rest.foldl min a


def normalizeDocHeadingLevels (doc : PMFrag) (allowed : List Int) : Option PMFrag :=
  if (collectHeadingUpdates doc (docMinLevel allowed)).isEmpty then none
  else some ((sortByPosDesc (collectHeadingUpdates doc (docMinLevel allowed))).foldl
    (fun d u => setNodeMarkupFrag d 0 u.1 u.2) doc)


/-! ### Fragment lemmas -/

/-- Every top-level node of the fragment has a positive size (true of every
real ProseMirror block node: leaves count 1, elements at least 2; only an
empty text node would have size 0 and those cannot exist in a document). -/
def fragPositive : PMFrag → Bool
  | .nil => true
  | .cons c rest => decide (0 < nodeSize c) && fragPositive rest


/-- A concrete HTML collaborator for witnesses: no anchor found. -/
def noHtmlAnchor : String → Option String := fun _ => none


mutual
/-- The document-engine invariant: no empty text node anywhere (ProseMirror
forbids them), so every node occupies at least one token. -/
def nodeWF : PMNode → Bool
  | .text s => decide (0 < s.length)
  | .leaf _ _ => true
  | .elem _ _ content => fragWF content
def fragWF : PMFrag → Bool
  | .nil => true
  | .cons c rest => nodeWF c && fragWF rest
end


/-- The per-entry effect of `setNodeMarkup` at position `p` on the
descendants list: the entry at `p` gets the new attributes, everything else
is unchanged. -/
def patchEntry (p : Nat) (attrs : List (String × JVal))
    (e : Nat × String × List (String × JVal)) :
    Nat × String × List (String × JVal) :=
  if e.1 = p then (e.1, e.2.1, attrs) else e


/-- The cumulative effect of the whole update batch on one descendants
entry: the attributes of the unique update at this position, if any. -/
def lookupPatch (us : List (Nat × List (String × JVal)))
    (e : Nat × String × List (String × JVal)) :
    Nat × String × List (String × JVal) :=
  match us.find? (fun u => u.1 == e.1) with
  | some u => (e.1, e.2.1, u.2)
  | none => e


theorem allowed_lt_or_gt {u : Nat} (ha : isAllowedCodePoint u = true) :
    u < 0xD800 ∨ 0xDFFF < u := by
  rw [isAllowedCodePoint] at ha
  split at ha
  · exact absurd ha (by simp)
  · simp only [SAFE_TEXT_RANGES, List.any_cons, List.any_nil,
      Bool.or_eq_true, Bool.and_eq_true, decide_eq_true_eq,
      Bool.or_false] at ha
    omega


theorem allowed_not_surrogate (u : Nat)
    (h : isSurrogateLead u = true ∨ isSurrogateTrail u = true) :
    isAllowedCodePoint u = false := by
  simp only [isSurrogateLead, isSurrogateTrail, Bool.and_eq_true,
    decide_eq_true_eq] at h
  by_contra hc
  rw [Bool.not_eq_false] at hc
  rcases allowed_lt_or_gt hc with h3 | h3 <;> rcases h with ⟨h1, h2⟩ | ⟨h1, h2⟩ <;> omega


theorem notAllowed_single {u : Nat} (ha : isAllowedCodePoint u = true) :
    isSurrogateLead u = false ∧ isSurrogateTrail u = false := by
  rcases allowed_lt_or_gt ha with h | h <;>
    constructor <;> simp [isSurrogateLead, isSurrogateTrail] <;> omega


theorem filterToSafeText_sanitized (l : List Nat) :
    SanitizedText (filterToSafeText l) := by
  induction l using filterToSafeText.induct with
  | case1 => exact .nil
  | case2 u ha =>
    simp only [filterToSafeText, ha, if_true]
    exact .single u [] ha (notAllowed_single ha).1 (notAllowed_single ha).2 .nil
  | case3 u ha =>
    simp only [filterToSafeText, ha, Bool.false_eq_true, if_false]
    exact .nil
  | case4 u v rest2 hp ha ih =>
    simp only [filterToSafeText, hp, ha, if_true]
    rw [Bool.and_eq_true] at hp
    exact .pair u v _ _ hp.1 hp.2 rfl ha ih
  | case5 u v rest2 hp ha ih =>
    simp only [filterToSafeText, hp, ha, Bool.false_eq_true, if_false, if_true]
    exact ih
  | case6 u v rest2 hp ha ih =>
    simp only [filterToSafeText, hp, Bool.false_eq_true, if_false, ha, if_true]
    exact .single u _ ha (notAllowed_single ha).1 (notAllowed_single ha).2 ih
  | case7 u v rest2 hp ha ih =>
    simp only [filterToSafeText, hp, Bool.false_eq_true, if_false, ha]
    exact ih


theorem sanitized_filter_eq {l : List Nat} (h : SanitizedText l) :
    filterToSafeText l = l := by
  induction h with
  | nil => rfl
  | single u rest ha hlead htrail _ ih =>
    cases rest with
    | nil => simp [filterToSafeText, ha]
    | cons v rest2 =>
      simp only [filterToSafeText, hlead, Bool.false_and, Bool.false_eq_true,
        if_false, ha, if_true]
      rw [ih]
  | pair u v cp rest hu hv hcp ha _ ih =>
    subst hcp
    simp only [filterToSafeText, hu, hv, Bool.and_self, ha, if_true]
    rw [ih]


theorem filterToSafeText_idem (l : List Nat) :
    filterToSafeText (filterToSafeText l) = filterToSafeText l :=
  sanitized_filter_eq (filterToSafeText_sanitized l)


theorem filterToSafeText_sublist (l : List Nat) :
    List.Sublist (filterToSafeText l) l := by
  induction l using filterToSafeText.induct with
  | case1 => simp [filterToSafeText]
  | case2 u ha =>
    simp only [filterToSafeText, ha, if_true]
    exact List.Sublist.refl _
  | case3 u ha =>
    simp only [filterToSafeText, ha, Bool.false_eq_true, if_false]
    exact List.nil_sublist _
  | case4 u v rest2 hp ha ih =>
    simp only [filterToSafeText, hp, ha, if_true]
    exact (ih.cons₂ v).cons₂ u
  | case5 u v rest2 hp ha ih =>
    simp only [filterToSafeText, hp, ha, Bool.false_eq_true, if_false, if_true]
    exact (ih.cons v).cons u
  | case6 u v rest2 hp ha ih =>
    simp only [filterToSafeText, hp, Bool.false_eq_true, if_false, ha, if_true]
    exact ih.cons₂ u
  | case7 u v rest2 hp ha ih =>
    simp only [filterToSafeText, hp, Bool.false_eq_true, if_false, ha]
    exact ih.cons u


theorem splitOnLF_ne_nil (l : List Nat) : splitOnLF l ≠ [] := by
  cases l with
  | nil => simp [splitOnLF]
  | cons u rest =>
    rw [splitOnLF]
    split
    · simp
    · split <;> simp


theorem joinLF_splitOnLF (l : List Nat) : joinLF (splitOnLF l) = l := by
  induction l with
  | nil => rfl
  | cons u rest ih =>
    rcases hs : splitOnLF rest with _ | ⟨h1, t1⟩
    · exact absurd hs (splitOnLF_ne_nil rest)
    · rw [splitOnLF]
      split
      · rename_i h
        subst h
        rw [hs, joinLF, List.nil_append, ← hs, ih]
      · rw [hs]
        cases t1 with
        | nil =>
          rw [joinLF]
          rw [hs, joinLF] at ih
          rw [ih]
        | cons h2 t2 =>
          rw [joinLF, List.cons_append]
          rw [hs, joinLF] at ih
          rw [ih]


theorem splitOnLF_no_lf (l : List Nat) :
    ∀ x ∈ splitOnLF l, ¬ (10 ∈ x) := by
  induction l with
  | nil =>
    intro x hx
    simp only [splitOnLF, List.mem_singleton] at hx
    simp [hx]
  | cons u rest ih =>
    intro x hx
    rw [splitOnLF] at hx
    split at hx
    · rcases List.mem_cons.mp hx with hx | hx
      · simp [hx]
      · exact ih x hx
    · rename_i hu
      rcases hs : splitOnLF rest with _ | ⟨h1, t1⟩
      · exact absurd hs (splitOnLF_ne_nil rest)
      · rw [hs] at hx
        rcases List.mem_cons.mp hx with hx | hx
        · subst hx
          intro hmem
          rcases List.mem_cons.mp hmem with h | h
          · exact hu h.symm
          · exact ih h1 (by rw [hs]; simp) h
        · exact ih x (by rw [hs]; simp [hx])


theorem splitOnLF_of_no_lf (l : List Nat) (hl : ¬ (10 ∈ l)) :
    splitOnLF l = [l] := by
  induction l with
  | nil => rfl
  | cons u lu ihl =>
    have hu : ¬ (u = 10) := fun h => hl (by simp [h])
    rw [splitOnLF, if_neg hu, ihl (fun h => hl (by simp [h]))]


theorem splitOnLF_joinLF (ls : List (List Nat)) (hnn : ls ≠ [])
    (hlf : ∀ x ∈ ls, ¬ (10 ∈ x)) : splitOnLF (joinLF ls) = ls := by
  induction ls with
  | nil => exact absurd rfl hnn
  | cons l rest ih =>
    cases rest with
    | nil =>
      rw [joinLF]
      exact splitOnLF_of_no_lf l (hlf l (by simp))
    | cons l2 rest2 =>
      rw [joinLF]
      have step : ∀ (a : List Nat), ¬ (10 ∈ a) →
          splitOnLF (a ++ 10 :: joinLF (l2 :: rest2)) =
          a :: splitOnLF (joinLF (l2 :: rest2)) := by
        intro a ha
        induction a with
        | nil => simp [splitOnLF]
        | cons u au iha =>
          rw [List.cons_append, splitOnLF]
          have hu : ¬ (u = 10) := fun h => ha (by simp [h])
          rw [if_neg hu, iha (fun h => ha (by simp [h]))]
      rw [step l (hlf l (by simp))]
      rw [ih (by simp) (fun x hx => hlf x (by simp [hx]))]


theorem isBlankLine_nil : isBlankLine [] = true := by
  simp [isBlankLine, stripNbspEntity, jsTrimUnits]


theorem collapseBlankLines_idem (ls : List (List Nat)) :
    ∀ b, collapseBlankLines b (collapseBlankLines b ls) = collapseBlankLines b ls := by
  induction ls with
  | nil => intro b; rfl
  | cons l rest ih =>
    intro b
    by_cases hl : isBlankLine l = true
    · cases b
      · have e1 : collapseBlankLines false (l :: rest) =
            [] :: collapseBlankLines true rest := by
          rw [collapseBlankLines]; simp [hl]
        rw [e1]
        have e2 : collapseBlankLines false ([] :: collapseBlankLines true rest) =
            [] :: collapseBlankLines true (collapseBlankLines true rest) := by
          rw [collapseBlankLines]; simp [isBlankLine_nil]
        rw [e2, ih true]
      · have e1 : collapseBlankLines true (l :: rest) =
            collapseBlankLines true rest := by
          rw [collapseBlankLines]; simp [hl]
        rw [e1, ih true]
    · rw [Bool.not_eq_true] at hl
      have e1 : ∀ c, collapseBlankLines c (l :: rest) =
          l :: collapseBlankLines false rest := by
        intro c; rw [collapseBlankLines]; simp [hl]
      rw [e1]
      have e2 : collapseBlankLines b (l :: collapseBlankLines false rest) =
          l :: collapseBlankLines false (collapseBlankLines false rest) := by
        rw [collapseBlankLines]; simp [hl]
      rw [e2, ih false]


theorem collapseBlankLines_ne_nil (l : List Nat) (rest : List (List Nat)) :
    collapseBlankLines false (l :: rest) ≠ [] := by
  rw [collapseBlankLines]
  split
  · simp
  · simp


theorem collapseBlankLines_mem (P : List Nat → Prop) (hP : P []) :
    ∀ (ls : List (List Nat)) (b : Bool), (∀ x ∈ ls, P x) →
    ∀ x ∈ collapseBlankLines b ls, P x := by
  intro ls
  induction ls with
  | nil =>
    intro b _ x hx
    simp [collapseBlankLines] at hx
  | cons l rest ih =>
    intro b hall x hx
    rw [collapseBlankLines] at hx
    split at hx
    · split at hx
      · exact ih true (fun y hy => hall y (by simp [hy])) x hx
      · rcases List.mem_cons.mp hx with hx | hx
        · rw [hx]; exact hP
        · exact ih true (fun y hy => hall y (by simp [hy])) x hx
    · rcases List.mem_cons.mp hx with hx | hx
      · rw [hx]; exact hall l (by simp)
      · exact ih false (fun y hy => hall y (by simp [hy])) x hx


theorem sanitized_append {a b : List Nat}
    (ha : SanitizedText a) (hb : SanitizedText b) : SanitizedText (a ++ b) := by
  induction ha with
  | nil => simpa using hb
  | single u rest h1 h2 h3 _ ih => exact .single u _ h1 h2 h3 ih
  | pair u v cp rest h1 h2 h3 h4 _ ih => exact .pair u v cp _ h1 h2 h3 h4 ih


theorem sanitized_joinLF (ls : List (List Nat))
    (h : ∀ x ∈ ls, SanitizedText x) : SanitizedText (joinLF ls) := by
  induction ls with
  | nil => exact .nil
  | cons l rest ih =>
    cases rest with
    | nil => rw [joinLF]; exact h l (by simp)
    | cons l2 rest2 =>
      rw [joinLF]
      refine sanitized_append (h l (by simp)) ?_
      refine .single 10 _ (by decide) (by decide) (by decide) ?_
      exact ih (fun x hx => h x (by simp [hx]))


theorem sanitized_splitOnLF {l : List Nat} (h : SanitizedText l) :
    ∀ x ∈ splitOnLF l, SanitizedText x := by
  induction h with
  | nil =>
    intro x hx
    simp only [splitOnLF, List.mem_singleton] at hx
    rw [hx]; exact .nil
  | single u rest ha hlead htrail _ ih =>
    intro x hx
    rw [splitOnLF] at hx
    split at hx
    · rcases List.mem_cons.mp hx with hx | hx
      · rw [hx]; exact .nil
      · exact ih x hx
    · rcases hs : splitOnLF rest with _ | ⟨h1, t1⟩
      · exact absurd hs (splitOnLF_ne_nil rest)
      · rw [hs] at hx
        rcases List.mem_cons.mp hx with hx | hx
        · rw [hx]
          exact .single u h1 ha hlead htrail (ih h1 (by rw [hs]; simp))
        · exact ih x (by rw [hs]; simp [hx])
  | pair u v cp rest hu hv hcp ha _ ih =>
    intro x hx
    have hu10 : ¬ (u = 10) := by
      simp only [isSurrogateLead, Bool.and_eq_true, decide_eq_true_eq] at hu
      omega
    have hv10 : ¬ (v = 10) := by
      simp only [isSurrogateTrail, Bool.and_eq_true, decide_eq_true_eq] at hv
      omega
    rw [splitOnLF, if_neg hu10] at hx
    rcases hs : splitOnLF (v :: rest) with _ | ⟨h1, t1⟩
    · exact absurd hs (splitOnLF_ne_nil _)
    · rw [hs] at hx
      rw [splitOnLF, if_neg hv10] at hs
      rcases hs2 : splitOnLF rest with _ | ⟨h2, t2⟩
      · exact absurd hs2 (splitOnLF_ne_nil rest)
      · rw [hs2] at hs
        injection hs with e1 e2
        rcases List.mem_cons.mp hx with hx | hx
        · rw [hx, ← e1]
          exact .pair u v cp h2 hu hv hcp ha (ih h2 (by rw [hs2]; simp))
        · rw [← e2] at hx
          exact ih x (by rw [hs2]; simp [hx])


/-- Idempotence of the whole sanitizer pipeline. -/
theorem cleanupMarkdownOutput_idem (l : List Nat) :
    cleanupMarkdownOutput (cleanupMarkdownOutput l) = cleanupMarkdownOutput l := by
  rw [cleanupMarkdownOutput, cleanupMarkdownOutput]
  have hsanf1 : SanitizedText (filterToSafeText l) := filterToSafeText_sanitized l
  have hxs_san : ∀ x ∈ splitOnLF (filterToSafeText l), SanitizedText x :=
    sanitized_splitOnLF hsanf1
  have hxs_lf : ∀ x ∈ splitOnLF (filterToSafeText l), ¬ (10 ∈ x) :=
    splitOnLF_no_lf (filterToSafeText l)
  have hys_san : ∀ x ∈ collapseBlankLines false (splitOnLF (filterToSafeText l)),
      SanitizedText x :=
    collapseBlankLines_mem SanitizedText .nil _ false hxs_san
  have hys_lf : ∀ x ∈ collapseBlankLines false (splitOnLF (filterToSafeText l)),
      ¬ (10 ∈ x) :=
    collapseBlankLines_mem (fun x => ¬ (10 ∈ x)) (by simp) _ false hxs_lf
  have ht_san : SanitizedText
      (joinLF (collapseBlankLines false (splitOnLF (filterToSafeText l)))) :=
    sanitized_joinLF _ hys_san
  rw [sanitized_filter_eq ht_san]
  have hys_nn : collapseBlankLines false (splitOnLF (filterToSafeText l)) ≠ [] := by
    rcases he : splitOnLF (filterToSafeText l) with _ | ⟨x1, xr⟩
    · exact absurd he (splitOnLF_ne_nil _)
    · exact collapseBlankLines_ne_nil x1 xr
  rw [splitOnLF_joinLF _ hys_nn hys_lf]
  rw [collapseBlankLines_idem]


/-- C7: for every input, the sanitizer's character filter removes every code
point that is denylisted or outside the allow-list ranges (the output is a
sublist of the input consisting only of complete allowed code points, so
every disallowed code point is gone), and it never splits a surrogate pair (a
kept astral code point keeps both its code units — the `pair` case of
`SanitizedText` — and a removed one drops both, as the output contains no
lone surrogate); and sanitizing already-sanitized text is the identity:
`cleanupMarkdownOutput` is idempotent. -/
theorem C7_sanitizer_removes_and_idempotent (l : List Nat) :
    List.Sublist (filterToSafeText l) l ∧
    SanitizedText (filterToSafeText l) ∧
    cleanupMarkdownOutput (cleanupMarkdownOutput l) = cleanupMarkdownOutput l :=
  ⟨filterToSafeText_sublist l, filterToSafeText_sanitized l,
    cleanupMarkdownOutput_idem l⟩


theorem matchesUrlPattern_no_space {s : String} (h : hasJsSpace s = true) :
    matchesUrlPattern s = false := by
  rw [hasJsSpace, List.any_eq_true] at h
  obtain ⟨c, hc, hcs⟩ := h
  rw [matchesUrlPattern]
  have key : ∀ (p : String) (n : Nat), n = p.length →
      (∀ d ∈ p.toList, isJsSpace d = false) →
      strStartsWith s p = true →
      (decide (s.toList.drop n ≠ []) &&
        (s.toList.drop n).all (fun d => !isJsSpace d)) = false := by
    intro p n hn hp hpre
    rw [strStartsWith, decide_eq_true_eq] at hpre
    have hsplit : s.toList = s.toList.take p.length ++ s.toList.drop p.length :=
      (List.take_append_drop _ _).symm
    have hcmem : c ∈ s.toList.drop p.length := by
      rcases List.mem_append.mp (hsplit ▸ hc) with h1 | h1
      · rw [hpre] at h1
        exact absurd (hp c h1) (by simp [hcs])
      · exact h1
    subst hn
    have : (s.toList.drop p.length).all (fun d => !isJsSpace d) = false := by
      rw [List.all_eq_false]
      exact ⟨c, hcmem, by simp [hcs]⟩
    rw [this, Bool.and_false]
  split
  · exact key "https://" 8 (by decide) (by decide) (by assumption)
  · split
    · exact key "http://" 7 (by decide) (by decide) (by assumption)
    · rfl


theorem parseEmbedUrl_none_of_empty {jsURL : String → Option URLRec}
    {input : String} (h : (jsTrim input).isEmpty = true) :
    parseEmbedUrl jsURL input = none := by
  rw [parseEmbedUrl]
  simp only [h, if_true]


theorem parseEmbedUrl_none_of_pattern {jsURL : String → Option URLRec}
    {input : String} (h : matchesUrlPattern (jsTrim input) = false) :
    parseEmbedUrl jsURL input = none := by
  rw [parseEmbedUrl]
  split
  · rfl
  · simp only [h, Bool.not_false, if_true]


theorem parseEmbedUrl_accepts {jsURL : String → Option URLRec}
    {input : String} {u : URLRec}
    (h1 : (jsTrim input).isEmpty = false)
    (h2 : matchesUrlPattern (jsTrim input) = true)
    (h3 : strStartsWith (jsTrim input) "http" = true)
    (h4 : jsURL (jsTrim input) = some u)
    (h5 : u.protocol = "https:" ∨ u.protocol = "http:") :
    parseEmbedUrl jsURL input = some ⟨u.href, .generic⟩ := by
  rw [parseEmbedUrl]
  simp only [h1, Bool.false_eq_true, if_false, h2, Bool.not_true,
    h3, if_true, h4, h5, if_pos h5]


theorem matchesUrlPattern_no_scheme {s : String}
    (h1 : strStartsWith s "https://" = false)
    (h2 : strStartsWith s "http://" = false) :
    matchesUrlPattern s = false := by
  rw [matchesUrlPattern]
  simp only [h1, Bool.false_eq_true, if_false, h2]


/-- C8: `parseEmbedUrl` never throws (it is total, returning an `Option`; the
one throwing call of the source sits inside `try/catch`, modelled by the
collaborator returning `Option`) and returns `none` whenever the trimmed
input is empty, contains whitespace, or does not start with `http://` or
`https://`; a single-token http(s) URL is returned as re-serialized by the
standard URL parser with provider `generic`: `"https://example.com/a?b=c"`
maps to itself, while `"not a url"` and `"https://a.com b.com"` map to
`none`. -/
theorem C8_parseEmbedUrl_rejects_and_normalizes :
    (∀ (jsURL : String → Option URLRec) (input : String),
        (jsTrim input).isEmpty = true → parseEmbedUrl jsURL input = none) ∧
    (∀ (jsURL : String → Option URLRec) (input : String),
        hasJsSpace (jsTrim input) = true → parseEmbedUrl jsURL input = none) ∧
    (∀ (jsURL : String → Option URLRec) (input : String),
        strStartsWith (jsTrim input) "https://" = false →
        strStartsWith (jsTrim input) "http://" = false →
        parseEmbedUrl jsURL input = none) ∧
    (∀ jsURL : String → Option URLRec,
        jsURL "https://example.com/a?b=c" =
          some ⟨"https:", "https://example.com/a?b=c"⟩ →
        parseEmbedUrl jsURL "https://example.com/a?b=c" =
          some ⟨"https://example.com/a?b=c", EmbedProvider.generic⟩) ∧
    (∀ jsURL : String → Option URLRec, parseEmbedUrl jsURL "not a url" = none) ∧
    (∀ jsURL : String → Option URLRec,
        parseEmbedUrl jsURL "https://a.com b.com" = none) := by
  refine ⟨?_, ?_, ?_, ?_, ?_, ?_⟩
  · intro jsURL input h
    exact parseEmbedUrl_none_of_empty h
  · intro jsURL input h
    exact parseEmbedUrl_none_of_pattern (matchesUrlPattern_no_space h)
  · intro jsURL input h1 h2
    exact parseEmbedUrl_none_of_pattern (matchesUrlPattern_no_scheme h1 h2)
  · intro jsURL h
    refine parseEmbedUrl_accepts (u := ⟨"https:", "https://example.com/a?b=c"⟩)
      (by decide) (by decide) (by decide) ?_ (Or.inl rfl)
    rw [show jsTrim "https://example.com/a?b=c" = "https://example.com/a?b=c" from by decide]
    exact h
  · intro jsURL
    exact parseEmbedUrl_none_of_pattern (by decide)
  · intro jsURL
    exact parseEmbedUrl_none_of_pattern (by decide)


/-- Witness for C8 at the concrete collaborator `jsURLStub`. -/
theorem C8_parseEmbedUrl_witness :
    parseEmbedUrl jsURLStub "https://example.com/a?b=c" =
      some ⟨"https://example.com/a?b=c", EmbedProvider.generic⟩ ∧
    parseEmbedUrl jsURLStub "not a url" = none ∧
    parseEmbedUrl jsURLStub "https://a.com b.com" = none :=
  ⟨C8_parseEmbedUrl_rejects_and_normalizes.2.2.2.1 jsURLStub rfl,
   C8_parseEmbedUrl_rejects_and_normalizes.2.2.2.2.1 jsURLStub,
   C8_parseEmbedUrl_rejects_and_normalizes.2.2.2.2.2 jsURLStub⟩


theorem dropWhile_head_not {α : Type} (p : α → Bool) (l : List α) {c : α}
    {rest : List α} (h : l.dropWhile p = c :: rest) : p c = false := by
  induction l with
  | nil => simp [List.dropWhile] at h
  | cons a l ih =>
    rw [List.dropWhile_cons] at h
    split at h
    · exact ih h
    · rename_i hp
      injection h with h1 _
      rw [← h1]
      simpa using hp


theorem dropWhile_getLast_eq {α : Type} (p : α → Bool) (l : List α) {c : α}
    {rest : List α} (h : l.dropWhile p = c :: rest) :
    (c :: rest).getLast? = l.getLast? := by
  induction l with
  | nil => simp [List.dropWhile] at h
  | cons a l ih =>
    rw [List.dropWhile_cons] at h
    split at h
    · have hl : l ≠ [] := by
        intro he
        rw [he] at h
        simp [List.dropWhile] at h
      cases l with
      | nil => exact absurd rfl hl
      | cons b l2 =>
        rw [List.getLast?_cons_cons]
        exact ih h
    · rw [h]


theorem head_dropWhile_not {α : Type} (p : α → Bool) (l : List α) {c : α}
    (h : (l.dropWhile p).head? = some c) : p c = false := by
  rcases he : l.dropWhile p with _ | ⟨x, r⟩
  · rw [he] at h
    simp at h
  · rw [he] at h
    injection h with h1
    rw [← h1]
    exact dropWhile_head_not p l he


theorem filter_two_of_ends {t : List Char} (h2 : 2 ≤ t.length)
    (hhead : ∀ c, t.head? = some c → isJsSpace c = false)
    (hlast : ∀ c, t.getLast? = some c → isJsSpace c = false) :
    2 ≤ (t.filter (fun c => !isJsSpace c)).length := by
  cases t with
  | nil => simp at h2
  | cons c rest =>
    cases rest with
    | nil => simp at h2
    | cons d rest2 =>
      have hc : isJsSpace c = false := hhead c rfl
      have hne : (d :: rest2) ≠ ([] : List Char) := by simp
      have hlasteq : (c :: d :: rest2).getLast? = some ((d :: rest2).getLast hne) := by
        rw [List.getLast?_cons_cons]
        exact List.getLast?_eq_getLast _ hne
      have hee : isJsSpace ((d :: rest2).getLast hne) = false :=
        hlast _ hlasteq
      have hemem : (d :: rest2).getLast hne ∈ d :: rest2 := List.getLast_mem hne
      rw [List.filter_cons_of_pos (by simp [hc])]
      have hfe : (d :: rest2).getLast hne ∈
          (d :: rest2).filter (fun x => !isJsSpace x) :=
        List.mem_filter.mpr ⟨hemem, by simp [hee]⟩
      have := List.length_pos.mpr (List.ne_nil_of_mem hfe)
      simp only [List.length_cons]
      omega


theorem jsTrimList_last_not_space (l : List Char) {c : Char}
    (h : (jsTrimList l).getLast? = some c) : isJsSpace c = false := by
  rw [jsTrimList, List.getLast?_reverse] at h
  exact head_dropWhile_not _ _ h


theorem jsTrimList_head_not_space (l : List Char) {c : Char}
    (h : (jsTrimList l).head? = some c) : isJsSpace c = false := by
  rw [jsTrimList, List.head?_reverse] at h
  rcases hb : (l.dropWhile isJsSpace).reverse.dropWhile isJsSpace with _ | ⟨x, r⟩
  · rw [hb] at h
    simp at h
  · rw [hb] at h
    have := dropWhile_getLast_eq isJsSpace (l.dropWhile isJsSpace).reverse hb
    rw [h] at this
    rw [List.getLast?_reverse] at this
    exact head_dropWhile_not _ _ this.symm


theorem jsTrim_two_nonws (s : String) (h2 : 2 ≤ (jsTrim s).length) :
    2 ≤ ((jsTrim s).toList.filter (fun c => !isJsSpace c)).length := by
  have h2t : 2 ≤ (jsTrimList s.toList).length := h2
  have := filter_two_of_ends h2t
    (fun c hc => jsTrimList_head_not_space s.toList hc)
    (fun c hc => jsTrimList_last_not_space s.toList hc)
  exact this


/-- C9: `looksLikeMarkdown` returns `false` for every string whose trimmed
form has fewer than 2 non-whitespace characters, and matches the stated
examples: a heading and a bold marker are recognized, plain prose is not. -/
theorem C9_looksLikeMarkdown_spec :
    (∀ s : String,
        ((jsTrim s).toList.filter (fun c => !isJsSpace c)).length < 2 →
        looksLikeMarkdown s = false) ∧
    looksLikeMarkdown "# Title" = true ∧
    looksLikeMarkdown "**bold**" = true ∧
    looksLikeMarkdown "just some plain prose." = false := by
  refine ⟨?_, by decide, by decide, by decide⟩
  intro s hcount
  have hlen : (jsTrim s).length < 2 := by
    by_contra hge
    push_neg at hge
    exact absurd (jsTrim_two_nonws s hge) (by omega)
  rw [looksLikeMarkdown]
  have hcond : ((jsTrim s).isEmpty || decide ((jsTrim s).length < 2)) = true := by
    rw [decide_eq_true hlen, Bool.or_true]
  rw [if_pos hcond]


/-- Witness for C9's quantified part at a concrete short input. -/
theorem C9_looksLikeMarkdown_witness :
    looksLikeMarkdown " x " = false :=
  C9_looksLikeMarkdown_spec.1 " x " (by decide)


theorem foldl_nearest (level : Int) (rest : List Int) :
    ∀ a : Int, nearestAllowed level (a :: rest) =
      some (rest.foldl (fun prev curr =>
        if (curr - level).natAbs < (prev - level).natAbs then curr else prev) a) := by
  induction rest with
  | nil => intro a; rfl
  | cons c rest ih =>
    intro a
    rw [List.foldl_cons, ← ih]
    rw [nearestAllowed, nearestAllowed, nearestAllowed]
    rcases hn : nearestAllowed level rest with _ | b
    all_goals simp only [nearCombine, Option.some.injEq]
    all_goals split_ifs
    all_goals first | rfl | omega


theorem foldl_min_mem (rest : List Int) : ∀ a : Int, rest.foldl min a ∈ a :: rest := by
  induction rest with
  | nil => intro a; simp
  | cons c rest ih =>
    intro a
    rw [List.foldl_cons]
    rcases List.mem_cons.mp (ih (min a c)) with h | h
    · rcases le_total a c with hac | hac
      · rw [h, min_eq_left hac]; simp
      · rw [h, min_eq_right hac]; simp
    · simp [h]


theorem foldl_max_mem (rest : List Int) : ∀ a : Int, rest.foldl max a ∈ a :: rest := by
  induction rest with
  | nil => intro a; simp
  | cons c rest ih =>
    intro a
    rw [List.foldl_cons]
    rcases List.mem_cons.mp (ih (max a c)) with h | h
    · rcases le_total a c with hac | hac
      · rw [h, max_eq_right hac]; simp
      · rw [h, max_eq_left hac]; simp
    · simp [h]


theorem foldl_min_le (rest : List Int) :
    ∀ a : Int, ∀ x ∈ a :: rest, rest.foldl min a ≤ x := by
  induction rest with
  | nil =>
    intro a x hx
    rcases List.mem_cons.mp hx with h | h
    · rw [h]; simp
    · simp at h
  | cons c rest ih =>
    intro a x hx
    rw [List.foldl_cons]
    rcases List.mem_cons.mp hx with h | h
    · rw [h]
      calc rest.foldl min (min a c) ≤ min a c := ih (min a c) _ (by simp)
        _ ≤ a := min_le_left _ _
    · rcases List.mem_cons.mp h with h2 | h2
      · rw [h2]
        calc rest.foldl min (min a c) ≤ min a c := ih (min a c) _ (by simp)
          _ ≤ c := min_le_right _ _
      · exact ih (min a c) x (by simp [h2])


theorem foldl_max_ge (rest : List Int) :
    ∀ a : Int, ∀ x ∈ a :: rest, x ≤ rest.foldl max a := by
  induction rest with
  | nil =>
    intro a x hx
    rcases List.mem_cons.mp hx with h | h
    · rw [h]; simp
    · simp at h
  | cons c rest ih =>
    intro a x hx
    rw [List.foldl_cons]
    rcases List.mem_cons.mp hx with h | h
    · rw [h]
      calc a ≤ max a c := le_max_left _ _
        _ ≤ rest.foldl max (max a c) := ih (max a c) _ (by simp)
    · rcases List.mem_cons.mp h with h2 | h2
      · rw [h2]
        calc c ≤ max a c := le_max_right _ _
          _ ≤ rest.foldl max (max a c) := ih (max a c) _ (by simp)
      · exact ih (max a c) x (by simp [h2])


theorem foldl_min_comm (rest : List Int) :
    ∀ x y : Int, rest.foldl min (min x y) = min x (rest.foldl min y) := by
  induction rest with
  | nil => intro x y; rfl
  | cons c rest ih =>
    intro x y
    rw [List.foldl_cons, List.foldl_cons, min_assoc, ih]


theorem foldl_max_comm (rest : List Int) :
    ∀ x y : Int, rest.foldl max (max x y) = max x (rest.foldl max y) := by
  induction rest with
  | nil => intro x y; rfl
  | cons c rest ih =>
    intro x y
    rw [List.foldl_cons, List.foldl_cons, max_assoc, ih]


theorem nearestAllowed_all_gt (level : Int) (rest : List Int) :
    ∀ a : Int, (∀ x ∈ a :: rest, level < x) →
      nearestAllowed level (a :: rest) = some (rest.foldl min a) := by
  induction rest with
  | nil => intro a h; rfl
  | cons c rest ih =>
    intro a h
    rw [nearestAllowed, ih c (fun x hx => h x (by simp [List.mem_cons.mp hx]))]
    rw [List.foldl_cons, foldl_min_comm]
    have hb_mem : rest.foldl min c ∈ c :: rest := foldl_min_mem rest c
    have hlb : level < rest.foldl min c := h _ (by simp [List.mem_cons.mp hb_mem])
    have hla : level < a := h a (by simp)
    simp only [nearCombine, Option.some.injEq]
    split_ifs <;> omega


theorem nearestAllowed_all_lt (level : Int) (rest : List Int) :
    ∀ a : Int, (∀ x ∈ a :: rest, x < level) →
      nearestAllowed level (a :: rest) = some (rest.foldl max a) := by
  induction rest with
  | nil => intro a h; rfl
  | cons c rest ih =>
    intro a h
    rw [nearestAllowed, ih c (fun x hx => h x (by simp [List.mem_cons.mp hx]))]
    rw [List.foldl_cons, foldl_max_comm]
    have hb_mem : rest.foldl max c ∈ c :: rest := foldl_max_mem rest c
    have hlb : rest.foldl max c < level := h _ (by simp [List.mem_cons.mp hb_mem])
    have hla : a < level := h a (by simp)
    simp only [nearCombine, Option.some.injEq]
    split_ifs <;> omega


theorem clampHeadingLevel_mem (level : Int) (a : Int) (rest : List Int) :
    clampHeadingLevel level (a :: rest) ∈ a :: rest := by
  rw [clampHeadingLevel]
  split
  · rename_i h
    exact List.mem_of_elem_eq_true h
  · split
    · exact foldl_min_mem rest a
    · split
      · exact foldl_max_mem rest a
      · -- the reduce picks one of the elements
        have step : ∀ (l : List Int) (x : Int), x ∈ a :: rest →
            (∀ y ∈ l, y ∈ a :: rest) →
            l.foldl (fun prev curr =>
              if (curr - level).natAbs < (prev - level).natAbs then curr
              else prev) x ∈ a :: rest := by
          intro l
          induction l with
          | nil => intro x hx _; exact hx
          | cons c lr ih =>
            intro x hx hall
            rw [List.foldl_cons]
            refine ih _ ?_ (fun y hy => hall y (by simp [hy]))
            split
            · exact hall c (by simp)
            · exact hx
        exact step rest a (by simp) (fun y hy => by simp [hy])


theorem clampHeadingLevel_eq_nearest (level : Int) (a : Int) (rest : List Int)
    (hnm : ¬ (level ∈ a :: rest)) :
    some (clampHeadingLevel level (a :: rest)) = nearestAllowed level (a :: rest) := by
  rw [clampHeadingLevel]
  rw [if_neg (by
    intro hc
    exact hnm (List.mem_of_elem_eq_true hc))]
  split
  · rename_i hlt
    exact (nearestAllowed_all_gt level rest a (fun x hx => by
      have := foldl_min_le rest a x hx
      omega)).symm
  · split
    · rename_i hge hgt
      exact (nearestAllowed_all_lt level rest a (fun x hx => by
        have := foldl_max_ge rest a x hx
        omega)).symm
    · exact (foldl_nearest level rest a).symm


/-- C6: `clampHeadingLevel` returns the level unchanged when it is already in
`allowedLevels` or when `allowedLevels` is empty; otherwise it returns the
nearest allowed value with equal-distance ties resolved to the earlier
element of the list (the spec-modelled `nearestAllowed`); and on
`{2,3,4,5,6}` it is the identity on `[2,6]`, `2` below, `6` above. -/
theorem C6_clampHeadingLevel_spec :
    (∀ level : Int, clampHeadingLevel level [] = level) ∧
    (∀ (level : Int) (allowed : List Int), level ∈ allowed →
        clampHeadingLevel level allowed = level) ∧
    (∀ (level : Int) (allowed : List Int), allowed ≠ [] → level ∉ allowed →
        some (clampHeadingLevel level allowed) = nearestAllowed level allowed) ∧
    (∀ level : Int, 2 ≤ level → level ≤ 6 →
        clampHeadingLevel level [2, 3, 4, 5, 6] = level) ∧
    (∀ level : Int, level < 2 → clampHeadingLevel level [2, 3, 4, 5, 6] = 2) ∧
    (∀ level : Int, 6 < level → clampHeadingLevel level [2, 3, 4, 5, 6] = 6) := by
  refine ⟨fun level => rfl, ?_, ?_, ?_, ?_, ?_⟩
  · intro level allowed hmem
    cases allowed with
    | nil => simp at hmem
    | cons a rest =>
      rw [clampHeadingLevel, if_pos (List.elem_eq_true_of_mem hmem)]
  · intro level allowed hne hnm
    cases allowed with
    | nil => exact absurd rfl hne
    | cons a rest => exact clampHeadingLevel_eq_nearest level a rest hnm
  · intro level h2 h6
    have : level = 2 ∨ level = 3 ∨ level = 4 ∨ level = 5 ∨ level = 6 := by omega
    rcases this with h | h | h | h | h <;> rw [h] <;> decide
  · intro level h2
    rw [clampHeadingLevel]
    rw [if_neg (by
      intro hc
      have hm := List.mem_of_elem_eq_true hc
      simp only [List.mem_cons, List.not_mem_nil, or_false] at hm
      rcases hm with h | h | h | h | h <;> omega)]
    rw [show ([3, 4, 5, 6] : List Int).foldl min 2 = 2 from by decide]
    rw [if_pos h2]
  · intro level h6
    rw [clampHeadingLevel]
    rw [if_neg (by
      intro hc
      have hm := List.mem_of_elem_eq_true hc
      simp only [List.mem_cons, List.not_mem_nil, or_false] at hm
      rcases hm with h | h | h | h | h <;> omega)]
    rw [show ([3, 4, 5, 6] : List Int).foldl min 2 = 2 from by decide]
    rw [if_neg (by omega)]
    rw [show ([3, 4, 5, 6] : List Int).foldl max 2 = 6 from by decide]
    rw [if_pos h6]


/-- Witness for C6 at concrete levels. -/
theorem C6_clampHeadingLevel_witness :
    clampHeadingLevel 4 [2, 3, 4, 5, 6] = 4 ∧
    clampHeadingLevel 1 [2, 3, 4, 5, 6] = 2 ∧
    clampHeadingLevel 9 [2, 3, 4, 5, 6] = 6 ∧
    some (clampHeadingLevel 1 [2, 3, 4, 5, 6]) = nearestAllowed 1 [2, 3, 4, 5, 6] :=
  ⟨C6_clampHeadingLevel_spec.2.2.2.1 4 (by omega) (by omega),
   C6_clampHeadingLevel_spec.2.2.2.2.1 1 (by omega),
   C6_clampHeadingLevel_spec.2.2.2.2.2 9 (by omega),
   C6_clampHeadingLevel_spec.2.2.1 1 [2, 3, 4, 5, 6] (by simp) (by decide)⟩


theorem getNumAttr_jsObjSet (a : List (String × JVal)) (k : String) (m : Int) :
    getNumAttr (jsObjSet a k (.num m)) k = some m := by
  induction a with
  | nil => simp [jsObjSet, getNumAttr, List.find?]
  | cons kv rest ih =>
    rcases kv with ⟨k0, v0⟩
    rw [jsObjSet]
    split
    · simp [getNumAttr, List.find?]
    · rename_i hk
      rw [getNumAttr, List.find?]
      have : (k0 == k) = false := by simp [hk]
      rw [this]
      exact ih


theorem jsObjSet_jsObjSet (a : List (String × JVal)) (k : String) (v w : JVal) :
    jsObjSet (jsObjSet a k v) k w = jsObjSet a k w := by
  induction a with
  | nil => simp [jsObjSet]
  | cons kv rest ih =>
    rcases kv with ⟨k0, v0⟩
    rw [jsObjSet]
    split
    · rw [jsObjSet, if_pos rfl, jsObjSet, if_pos (by assumption)]
    · rw [jsObjSet, if_neg (by assumption), ih, jsObjSet, if_neg (by assumption)]


mutual
theorem normalize_headingsNormalized (t : JSONContent) (allowed : List Int)
    (hne : allowed ≠ []) :
    headingsNormalized allowed (normalizeHeadingLevelsInContent t allowed) = true := by
  cases t with
  | mk ty attrs content =>
    rw [normalizeHeadingLevelsInContent, headingsNormalized, Bool.and_eq_true]
    refine ⟨?_, normalizeL_headingsNormalized content allowed hne⟩
    by_cases hty : ty = some "heading"
    · rw [if_pos hty, if_pos hty]
      rcases hlv : getNumAttr attrs "level" with _ | lv
      · rw [hlv]
      · rw [getNumAttr_jsObjSet]
        cases allowed with
        | nil => exact absurd rfl hne
        | cons a rest =>
          exact List.elem_eq_true_of_mem (clampHeadingLevel_mem lv a rest)
    · simp only [if_neg hty]
theorem normalizeL_headingsNormalized (l : JList) (allowed : List Int)
    (hne : allowed ≠ []) :
    headingsNormalizedL allowed (normalizeJList l allowed) = true := by
  cases l with
  | nil => rfl
  | cons hd tl =>
    rw [normalizeJList, headingsNormalizedL, Bool.and_eq_true]
    exact ⟨normalize_headingsNormalized hd allowed hne,
      normalizeL_headingsNormalized tl allowed hne⟩
end


mutual
theorem normalize_wellLeveled (t : JSONContent) (allowed : List Int) :
    wellLeveled (normalizeHeadingLevelsInContent t allowed) = wellLeveled t := by
  cases t with
  | mk ty attrs content =>
    rw [normalizeHeadingLevelsInContent, wellLeveled, wellLeveled]
    rw [normalizeL_wellLeveled content allowed]
    by_cases hty : ty = some "heading"
    · rw [if_pos hty, if_pos hty, if_pos hty]
      rcases hlv : getNumAttr attrs "level" with _ | lv
      · simp [hlv]
      · simp [getNumAttr_jsObjSet]
    · simp only [if_neg hty]
theorem normalizeL_wellLeveled (l : JList) (allowed : List Int) :
    wellLeveledL (normalizeJList l allowed) = wellLeveledL l := by
  cases l with
  | nil => rfl
  | cons hd tl =>
    rw [normalizeJList, wellLeveledL, wellLeveledL]
    rw [normalize_wellLeveled hd allowed, normalizeL_wellLeveled tl allowed]
end


mutual
theorem maskLevels_normalize (t : JSONContent) (allowed : List Int) :
    maskLevels (normalizeHeadingLevelsInContent t allowed) = maskLevels t := by
  cases t with
  | mk ty attrs content =>
    rw [normalizeHeadingLevelsInContent, maskLevels, maskLevels]
    rw [maskLevelsL_normalizeL content allowed]
    by_cases hty : ty = some "heading"
    · rw [if_pos hty, if_pos hty, if_pos hty]
      rcases hlv : getNumAttr attrs "level" with _ | lv
      · simp [hlv]
      · rw [getNumAttr_jsObjSet]
        simp [jsObjSet_jsObjSet]
    · simp only [if_neg hty]
theorem maskLevelsL_normalizeL (l : JList) (allowed : List Int) :
    maskLevelsL (normalizeJList l allowed) = maskLevelsL l := by
  cases l with
  | nil => rfl
  | cons hd tl =>
    rw [normalizeJList, maskLevelsL, maskLevelsL]
    rw [maskLevels_normalize hd allowed, maskLevelsL_normalizeL tl allowed]
end


/-- C4: after `normalizeHeadingLevelsInContent`, on any tree satisfying the
data-model invariant that headings carry a numeric level, every heading node
has `level ∈ allowedLevels` (for a non-empty allowed set), the invariant is
preserved, and nothing else is touched: masking the heading `level` values
gives back exactly the masked original, so node types, non-heading
attributes, non-`level` heading attributes and the tree shape are all
unchanged. -/
theorem C4_normalizeParsedContent_spec (t : JSONContent) (allowed : List Int)
    (hne : allowed ≠ []) (hwl : wellLeveled t = true) :
    headingsNormalized allowed (normalizeHeadingLevelsInContent t allowed) = true ∧
    wellLeveled (normalizeHeadingLevelsInContent t allowed) = true ∧
    maskLevels (normalizeHeadingLevelsInContent t allowed) = maskLevels t :=
  ⟨normalize_headingsNormalized t allowed hne,
   by rw [normalize_wellLeveled]; exact hwl,
   maskLevels_normalize t allowed⟩


/-- Witness for C4 on a concrete tree: a level-1 heading (with an extra
attribute) above a paragraph, normalized against `{2,3,4,5,6}`. -/
theorem C4_normalizeParsedContent_witness :
    (fun t : JSONContent =>
      headingsNormalized [2, 3, 4, 5, 6]
          (normalizeHeadingLevelsInContent t [2, 3, 4, 5, 6]) = true ∧
      wellLeveled (normalizeHeadingLevelsInContent t [2, 3, 4, 5, 6]) = true ∧
      maskLevels (normalizeHeadingLevelsInContent t [2, 3, 4, 5, 6]) = maskLevels t)
      (.mk (some "doc") []
        (.cons (.mk (some "heading") [("level", .num 1), ("id", .str "x")] .nil)
          (.cons (.mk (some "paragraph") [] .nil) .nil))) :=
  C4_normalizeParsedContent_spec _ [2, 3, 4, 5, 6] (by simp) (by decide)


theorem fragAppend_nil : ∀ a : PMFrag, fragAppend a .nil = a
  | .nil => rfl
  | .cons c rest => by rw [fragAppend, fragAppend_nil rest]


theorem fragAppend_assoc : ∀ a b c : PMFrag,
    fragAppend (fragAppend a b) c = fragAppend a (fragAppend b c)
  | .nil, _, _ => rfl
  | .cons x rest, b, c => by
    rw [fragAppend, fragAppend, fragAppend, fragAppend_assoc rest b c]


theorem fragSize_append : ∀ a b : PMFrag,
    fragSize (fragAppend a b) = fragSize a + fragSize b
  | .nil, b => by rw [fragAppend, fragSize]; omega
  | .cons c rest, b => by
    rw [fragAppend, fragSize, fragSize, fragSize_append rest b]
    omega


theorem fragCut_t_zero (frag : PMFrag) (f : Nat) : fragCut frag f 0 = .nil := by
  cases frag with
  | nil => rfl
  | cons c rest => rw [fragCut, if_pos rfl]


theorem fragCut_skip : ∀ (a b : PMFrag) (f t : Nat), fragSize a ≤ f →
    fragCut (fragAppend a b) f t = fragCut b (f - fragSize a) (t - fragSize a)
  | .nil, b, f, t, _ => by rw [fragAppend, fragSize, Nat.sub_zero, Nat.sub_zero]
  | .cons c rest, b, f, t, h => by
    rw [fragSize] at h
    have hsz : 0 ≤ fragSize rest := Nat.zero_le _
    rw [fragAppend, fragCut]
    by_cases ht : t = 0
    · rw [if_pos ht, ht]
      rw [Nat.zero_sub, fragCut_t_zero]
    · rw [if_neg ht]
      rw [if_pos (by omega : nodeSize c ≤ f)]
      rw [fragCut_skip rest b (f - nodeSize c) (t - nodeSize c) (by omega)]
      rw [fragSize]
      congr 1 <;> omega


theorem fragCut_whole : ∀ (a b : PMFrag), fragPositive a = true →
    fragCut (fragAppend a b) 0 (fragSize a) = a
  | .nil, b, _ => by rw [fragAppend, fragSize, fragCut_t_zero]
  | .cons c rest, b, hp => by
    rw [fragPositive, Bool.and_eq_true, decide_eq_true_eq] at hp
    rw [fragAppend, fragSize, fragCut]
    rw [if_neg (by omega : ¬ (nodeSize c + fragSize rest = 0))]
    rw [if_neg (by omega : ¬ (nodeSize c ≤ 0))]
    rw [if_pos (by constructor <;> omega)]
    rw [show nodeSize c + fragSize rest - nodeSize c = fragSize rest by omega]
    rw [fragCut_whole rest b hp.2]


theorem fragCut_self : ∀ (a : PMFrag), fragPositive a = true →
    fragCut a 0 (fragSize a) = a := by
  intro a hp
  have := fragCut_whole a .nil hp
  rw [fragAppend_nil] at this
  exact this


theorem resolveFrames_append : ∀ (a b : PMFrag) (start pos : Nat),
    start + fragSize a < pos →
    resolveFrames (fragAppend a b) start pos =
      resolveFrames b (start + fragSize a) pos
  | .nil, b, start, pos, _ => by rw [fragAppend, fragSize, Nat.add_zero]
  | .cons c rest, b, start, pos, h => by
    rw [fragSize] at h
    rw [fragAppend, resolveFrames]
    rw [if_neg (by omega : ¬ (pos ≤ start))]
    rw [if_neg (by omega : ¬ (pos < start + nodeSize c))]
    rw [resolveFrames_append rest b (start + nodeSize c) pos (by omega)]
    rw [fragSize]
    congr 1
    omega


/-! ### URL extraction lemmas -/

theorem stringMk_toList (s : String) : String.mk s.toList = s := rfl


theorem dropWhile_of_head_not {α : Type} (p : α → Bool) (l : List α)
    (h : ∀ c, l.head? = some c → p c = false) : l.dropWhile p = l := by
  cases l with
  | nil => rfl
  | cons c rest =>
    rw [List.dropWhile_cons, if_neg (by simp [h c rfl])]


theorem jsTrimList_idem (l : List Char) : jsTrimList (jsTrimList l) = jsTrimList l := by
  rw [jsTrimList]
  rw [dropWhile_of_head_not isJsSpace (jsTrimList l)
    (fun c hc => jsTrimList_head_not_space l hc)]
  rw [dropWhile_of_head_not isJsSpace (jsTrimList l).reverse
    (fun c hc => jsTrimList_last_not_space l (by rwa [List.head?_reverse] at hc))]
  rw [List.reverse_reverse]


theorem jsTrim_idem (s : String) : jsTrim (jsTrim s) = jsTrim s := by
  show String.mk (jsTrimList (jsTrimList s.toList)) = String.mk (jsTrimList s.toList)
  rw [jsTrimList_idem]


theorem takeWhile_of_all {α : Type} (p : α → Bool) (l : List α)
    (h : ∀ c ∈ l, p c = true) : l.takeWhile p = l := by
  induction l with
  | nil => rfl
  | cons c rest ih =>
    rw [List.takeWhile_cons, if_pos (h c (by simp))]
    rw [ih (fun x hx => h x (by simp [hx]))]


theorem matchUrlCandidate_of_single_token {t : String}
    (hp : matchesUrlPattern t = true) (hsp : hasJsSpace t = false) :
    matchUrlCandidate t = some t := by
  have hall : ∀ c ∈ t.toList, (!isJsSpace c) = true := by
    intro c hc
    rw [hasJsSpace] at hsp
    have := List.any_eq_false.mp hsp c hc
    simp [this]
  rw [matchesUrlPattern] at hp
  rw [matchUrlCandidate]
  by_cases h8 : strStartsWith t "https://" = true
  · simp only [h8, if_true]
    rw [if_pos h8] at hp
    simp only [Bool.and_eq_true, decide_eq_true_eq] at hp
    rw [takeWhile_of_all _ _ (fun c hc => hall c (List.mem_of_mem_drop hc))]
    rw [if_neg (by simp only [List.isEmpty_iff]; exact hp.1)]
    rw [List.take_append_drop, stringMk_toList]
  · by_cases h7 : strStartsWith t "http://" = true
    · simp only [h8, h7, if_true, Bool.false_eq_true, if_false]
      rw [if_neg (by simp [h8]), if_pos h7] at hp
      simp only [Bool.and_eq_true, decide_eq_true_eq] at hp
      rw [takeWhile_of_all _ _ (fun c hc => hall c (List.mem_of_mem_drop hc))]
      rw [if_neg (by simp only [List.isEmpty_iff]; exact hp.1)]
      rw [List.take_append_drop, stringMk_toList]
    · rw [if_neg (by simp [h8]), if_neg (by simp [h7])] at hp
      exact absurd hp (by simp)


theorem parseEmbedUrl_some_inv {jsURL : String → Option URLRec} {input : String}
    {r : EmbedUrlResult} (h : parseEmbedUrl jsURL input = some r) :
    (jsTrim input).isEmpty = false ∧ matchesUrlPattern (jsTrim input) = true := by
  rw [parseEmbedUrl] at h
  by_cases h1 : (jsTrim input).isEmpty
  · rw [if_pos h1] at h
    exact absurd h (by simp)
  · rw [if_neg h1] at h
    by_cases h2 : matchesUrlPattern (jsTrim input) = true
    · exact ⟨by simpa using h1, h2⟩
    · rw [if_pos (by simp [h2])] at h
      exact absurd h (by simp)


theorem extractUrlFromPastedText_single {t : String} (ht : jsTrim t = t)
    (hne : t.isEmpty = false) (hp : matchesUrlPattern t = true)
    (hsp : hasJsSpace t = false) :
    extractUrlFromPastedText t = some t := by
  rw [extractUrlFromPastedText, ht, if_neg (by simp [hne])]
  exact matchUrlCandidate_of_single_token hp hsp


theorem resolveFrames_at_most_start : ∀ (frag : PMFrag) (start pos : Nat),
    pos ≤ start → resolveFrames frag start pos = []
  | .nil, _, _, _ => rfl
  | .cons c rest, start, pos, h => by rw [resolveFrames, if_pos h]


/-- C10: the copy interception handler never modifies the document — whether
it intercepts (serializing, sanitizing and writing `text/plain`) or declines
(empty selection, missing serializer, or zero content extent), it dispatches
no transaction, so the document after the handler equals the document
before, for every serializer, selection and document. -/
theorem C10_markdownCopy_preserves_document (serialize : PMFrag → List Nat)
    (hasMarkdown : Bool) (doc : PMFrag) (selFrom selTo : Nat) :
    (markdownCopyHandler serialize hasMarkdown doc selFrom selTo).docAfter = doc := by
  rw [markdownCopyHandler]
  split
  · rfl
  · split <;> rfl


/-- C2 fails on the code: for every document, on Enter with the selection at
position 0 the handler evaluates
`state.tr.insert(0, paragraph).setSelection(TextSelection.near(tr.doc.resolve(1)))`
as the initializer of `const tr`, reading `tr` inside its own initializer —
a temporal-dead-zone access that raises a `ReferenceError` instead of
inserting a leading paragraph and returning `true`. -/
theorem C2_enter_at_doc_start_throws (jsURL : String → Option URLRec)
    (doc : PMFrag) :
    handleKeyDown jsURL doc 0 "Enter" = KeyOutcome.thrown "ReferenceError" := by
  rw [handleKeyDown]
  rw [if_neg (by simp)]
  rw [if_pos rfl]


/-- C3: a paste whose selection start resolves inside a blockquote, bullet
list, ordered list or list item is never turned into an embed — the handler
returns `false` (consumes nothing, dispatches nothing) regardless of the
clipboard contents and of the URL collaborators. -/
theorem C3_paste_in_nested_block_declines (jsURL : String → Option URLRec)
    (htmlAnchor : String → Option String) (clipboardData : Option Clipboard)
    (doc : PMFrag) (selFrom selTo : Nat)
    (h : isInsideNestedBlockFrames (resolveFrames doc 0 selFrom) = true) :
    handlePaste jsURL htmlAnchor clipboardData doc selFrom selTo = none := by
  cases clipboardData with
  | none => rfl
  | some clip =>
    rw [handlePaste]
    split
    · rfl
    · split
      · rfl
      · split
        · rfl
        · rw [h]
          simp


/-- Witness for C3: pasting a valid video URL on the blank line inside a
blockquote (cursor at position 2 of `blockquote [paragraph []]`) is
declined. -/
theorem C3_paste_in_nested_block_witness :
    handlePaste jsURLStub noHtmlAnchor
      (some ⟨"https://example.com/video", ""⟩)
      (.cons (.elem "blockquote" [] (.cons (.elem "paragraph" [] .nil) .nil)) .nil)
      2 2 = none :=
  C3_paste_in_nested_block_declines jsURLStub noHtmlAnchor
    (some ⟨"https://example.com/video", ""⟩)
    (.cons (.elem "blockquote" [] (.cons (.elem "paragraph" [] .nil) .nil)) .nil)
    2 2 (by rfl)


/-- C1 as stated is false on the code: pasting the two-token text
`"x https://a.com"` with the caret in an empty top-level paragraph does
create an embed (the candidate URL is extracted from anywhere in the text),
but its `originalUrl` is the extracted candidate `"https://a.com"` — not the
originally pasted text `"x https://a.com"` (nor its trimmed form). -/
theorem C1_originalUrl_counterexample :
    handlePaste jsURLStub noHtmlAnchor (some ⟨"x https://a.com", ""⟩)
        (.cons (.elem "paragraph" [] .nil) .nil) 1 1 =
      some (.cons
        (.leaf "embed"
          [("src", .str "https://a.com"), ("provider", .str "generic"),
           ("originalUrl", .str "https://a.com")]) .nil) ∧
    ("https://a.com" : String) ≠ "x https://a.com" ∧
    jsTrim "x https://a.com" = "x https://a.com" := by
  refine ⟨by rfl, by decide, by rfl⟩


theorem resolveFrames_into_para (front back : PMFrag)
    (pattrs : List (String × JVal)) (pc : PMFrag) :
    resolveFrames (fragAppend front (.cons (.elem "paragraph" pattrs pc) back)) 0
        (fragSize front + 1) =
      [(.elem "paragraph" pattrs pc, fragSize front)] := by
  rw [resolveFrames_append front _ 0 _ (by omega)]
  rw [Nat.zero_add]
  rw [resolveFrames]
  rw [if_neg (by omega)]
  rw [if_pos (by rw [nodeSize]; omega)]
  rw [resolveInto]
  rw [resolveFrames_at_most_start pc (fragSize front + 1) (fragSize front + 1)
    (le_refl _)]


theorem not_nested_para (pattrs : List (String × JVal)) (pc : PMFrag) (b : Nat) :
    isInsideNestedBlockFrames [(.elem "paragraph" pattrs pc, b)] = false := rfl


theorem fragCut_exact_node (front back : PMFrag) (c : PMNode)
    (hc : 0 < nodeSize c) :
    fragCut (fragAppend front (.cons c back)) (fragSize front)
        (fragSize front + nodeSize c) = .cons c .nil := by
  rw [fragCut_skip front _ _ _ (le_refl _)]
  rw [Nat.sub_self, Nat.add_sub_cancel_left]
  rw [fragCut]
  rw [if_neg (by omega)]
  rw [if_neg (by omega : ¬ (nodeSize c ≤ 0))]
  rw [if_pos ⟨rfl, le_refl _⟩]
  rw [Nat.sub_self, fragCut_t_zero]


theorem replaceRange_exact_node (front back : PMFrag) (c node : PMNode)
    (hfront : fragPositive front = true) (hback : fragPositive back = true) :
    replaceRangeFrag (fragAppend front (.cons c back)) (fragSize front)
        (fragSize front + nodeSize c) node = fragAppend front (.cons node back) := by
  rw [replaceRangeFrag]
  rw [fragCut_whole front _ hfront]
  have hdoc : fragAppend front (.cons c back) =
      fragAppend (fragAppend front (.cons c .nil)) back := by
    rw [fragAppend_assoc]
    rfl
  rw [hdoc]
  have hsz : fragSize (fragAppend front (.cons c .nil)) =
      fragSize front + nodeSize c := by
    rw [fragSize_append]
    rw [show fragSize (.cons c .nil) = nodeSize c + fragSize .nil from rfl]
    rw [show fragSize .nil = 0 from rfl]
    omega
  rw [fragCut_skip (fragAppend front (.cons c .nil)) back _ _ (by rw [hsz])]
  rw [hsz, Nat.sub_self, fragSize_append, hsz]
  rw [show fragSize front + nodeSize c + fragSize back -
      (fragSize front + nodeSize c) = fragSize back from by omega]
  rw [fragCut_self back hback]


theorem para_empty_not_meaningful (pattrs : List (String × JVal)) :
    fragHasMeaningfulContent (.cons (.elem "paragraph" pattrs .nil) .nil) = false :=
  rfl


/-- The common tail of the paste handler once a candidate URL has been
accepted, with the caret inside an empty top-level paragraph: the paragraph
(and only it) is replaced by one embed node in one transaction. -/
theorem handlePaste_parsed_empty_para (jsURL : String → Option URLRec)
    (htmlAnchor : String → Option String) (clip : Clipboard)
    (front back : PMFrag) (pattrs : List (String × JVal))
    (parsed : EmbedUrlResult)
    (hfront : fragPositive front = true) (hback : fragPositive back = true)
    (htext_ne : (pasteEffectiveText htmlAnchor clip).isEmpty = false)
    (hcand_nsp : hasJsSpace (pasteUrlCandidate (pasteEffectiveText htmlAnchor clip)) = false)
    (hparse : parseEmbedUrl jsURL (pasteUrlCandidate (pasteEffectiveText htmlAnchor clip)) =
      some parsed) :
    handlePaste jsURL htmlAnchor (some clip)
        (fragAppend front (.cons (.elem "paragraph" pattrs .nil) back))
        (fragSize front + 1) (fragSize front + 1) =
      some (fragAppend front (.cons
        (.leaf "embed" (embedAttrs parsed.embedUrl parsed.provider
          (pasteUrlCandidate (pasteEffectiveText htmlAnchor clip)))) back)) := by
  rw [handlePaste]
  rw [if_neg (by simp [htext_ne])]
  rw [if_neg (by simp [hcand_nsp])]
  simp only [hparse]
  rw [resolveFrames_into_para]
  rw [not_nested_para, Bool.or_self]
  rw [if_neg (by simp)]
  rw [pasteFromPos, pasteToPos, resolveFrames_into_para]
  simp only [List.getLast?_singleton]
  rw [fragCut_exact_node front back _ (by rw [nodeSize]; omega)]
  rw [para_empty_not_meaningful]
  rw [if_neg (by simp)]
  rw [replaceRange_exact_node front back _ _ hfront hback]


/-- The same tail with a non-empty paragraph under the caret: the slice has
meaningful content, so the handler declines. -/
theorem handlePaste_parsed_nonempty_para (jsURL : String → Option URLRec)
    (htmlAnchor : String → Option String) (clip : Clipboard)
    (front back pc : PMFrag) (pattrs : List (String × JVal))
    (parsed : EmbedUrlResult) (hpc : 0 < fragSize pc)
    (htext_ne : (pasteEffectiveText htmlAnchor clip).isEmpty = false)
    (hcand_nsp : hasJsSpace (pasteUrlCandidate (pasteEffectiveText htmlAnchor clip)) = false)
    (hparse : parseEmbedUrl jsURL (pasteUrlCandidate (pasteEffectiveText htmlAnchor clip)) =
      some parsed) :
    handlePaste jsURL htmlAnchor (some clip)
        (fragAppend front (.cons (.elem "paragraph" pattrs pc) back))
        (fragSize front + 1) (fragSize front + 1) = none := by
  rw [handlePaste]
  rw [if_neg (by simp [htext_ne])]
  rw [if_neg (by simp [hcand_nsp])]
  simp only [hparse]
  rw [resolveFrames_into_para]
  rw [not_nested_para, Bool.or_self]
  rw [if_neg (by simp)]
  rw [pasteFromPos, pasteToPos, resolveFrames_into_para]
  simp only [List.getLast?_singleton]
  rw [fragCut_exact_node front back _ (by rw [nodeSize]; omega)]
  rw [if_pos (by
    have he : fragHasMeaningfulContent
        (.cons (.elem "paragraph" pattrs pc) .nil) =
        (decide (0 < fragSize pc) || false) := rfl
    rw [he, decide_eq_true hpc]
    rfl)]


/-- C1 amended: when the clipboard yields an accepted candidate URL and the
caret sits in an empty top-level paragraph, the paste handler replaces that
paragraph (and only it) with a single embed node whose `src` and `provider`
come from the recognizer and whose `originalUrl` is the extracted candidate
URL — which equals the trimmed pasted text exactly when the paste is a
single bare-URL token (first conjunct), but is only the extracted URL for a
multi-token paste (third conjunct) — all in one dispatched transaction with
the event consumed; pasting into a non-empty paragraph creates no embed and
consumes nothing (second conjunct). -/
theorem C1_embed_paste_replaces_empty_block
    (jsURL : String → Option URLRec) (htmlAnchor : String → Option String)
    (clip : Clipboard) (front back pc : PMFrag)
    (pattrs : List (String × JVal))
    (hfront : fragPositive front = true) (hback : fragPositive back = true) :
    (∀ parsed : EmbedUrlResult,
      containsNl (jsTrim clip.plain) = false →
      hasJsSpace (jsTrim clip.plain) = false →
      parseEmbedUrl jsURL (jsTrim clip.plain) = some parsed →
      handlePaste jsURL htmlAnchor (some clip)
          (fragAppend front (.cons (.elem "paragraph" pattrs .nil) back))
          (fragSize front + 1) (fragSize front + 1) =
        some (fragAppend front (.cons
          (.leaf "embed" (embedAttrs parsed.embedUrl parsed.provider
            (jsTrim clip.plain))) back))) ∧
    (∀ parsed : EmbedUrlResult,
      containsNl (jsTrim clip.plain) = false →
      hasJsSpace (jsTrim clip.plain) = false →
      parseEmbedUrl jsURL (jsTrim clip.plain) = some parsed →
      0 < fragSize pc →
      handlePaste jsURL htmlAnchor (some clip)
          (fragAppend front (.cons (.elem "paragraph" pattrs pc) back))
          (fragSize front + 1) (fragSize front + 1) = none) ∧
    (∀ (u : String) (parsed : EmbedUrlResult),
      (jsTrim clip.plain).isEmpty = false →
      hasJsSpace (jsTrim clip.plain) = true →
      (jsTrim clip.html).isEmpty = true →
      extractUrlFromPastedText (jsTrim clip.plain) = none →
      extractUrlAnywhereInText (jsTrim clip.plain) = some u →
      hasJsSpace u = false →
      parseEmbedUrl jsURL u = some parsed →
      handlePaste jsURL htmlAnchor (some clip)
          (fragAppend front (.cons (.elem "paragraph" pattrs .nil) back))
          (fragSize front + 1) (fragSize front + 1) =
        some (fragAppend front (.cons
          (.leaf "embed" (embedAttrs parsed.embedUrl parsed.provider u)) back))) := by
  have heff_single : ∀ (hne : (jsTrim clip.plain).isEmpty = false)
      (hnl : containsNl (jsTrim clip.plain) = false)
      (hsp : hasJsSpace (jsTrim clip.plain) = false),
      pasteEffectiveText htmlAnchor clip = jsTrim clip.plain := by
    intro hne hnl hsp
    rw [pasteEffectiveText]
    rw [if_neg (by simp [hne, hnl, hsp])]
  have hcand_single : ∀ parsed : EmbedUrlResult,
      hasJsSpace (jsTrim clip.plain) = false →
      parseEmbedUrl jsURL (jsTrim clip.plain) = some parsed →
      pasteUrlCandidate (jsTrim clip.plain) = jsTrim clip.plain := by
    intro parsed hsp hurl
    obtain ⟨hne2, hpat⟩ := parseEmbedUrl_some_inv hurl
    rw [jsTrim_idem] at hne2 hpat
    rw [pasteUrlCandidate]
    rw [extractUrlFromPastedText_single (jsTrim_idem clip.plain) hne2 hpat hsp]
  refine ⟨?_, ?_, ?_⟩
  · intro parsed hnl hsp hurl
    obtain ⟨hne2, _⟩ := parseEmbedUrl_some_inv hurl
    rw [jsTrim_idem] at hne2
    have heff := heff_single hne2 hnl hsp
    have hcand := hcand_single parsed hsp hurl
    have h1 := handlePaste_parsed_empty_para jsURL htmlAnchor clip front back
      pattrs parsed hfront hback
      (by rw [heff]; exact hne2)
      (by rw [heff, hcand]; exact hsp)
      (by rw [heff, hcand]; exact hurl)
    rw [heff, hcand] at h1
    exact h1
  · intro parsed hnl hsp hurl hpc
    obtain ⟨hne2, _⟩ := parseEmbedUrl_some_inv hurl
    rw [jsTrim_idem] at hne2
    refine handlePaste_parsed_nonempty_para jsURL htmlAnchor clip front back pc
      pattrs parsed hpc ?_ ?_ ?_
    · rw [heff_single hne2 hnl hsp]
      exact hne2
    · rw [heff_single hne2 hnl hsp, hcand_single parsed hsp hurl]
      exact hsp
    · rw [heff_single hne2 hnl hsp, hcand_single parsed hsp hurl]
      exact hurl
  · intro u parsed hne hsp hhtml hstart hany huns hurl
    have heff : pasteEffectiveText htmlAnchor clip = jsTrim clip.plain := by
      rw [pasteEffectiveText]
      rw [if_pos (by simp [hsp])]
      rw [extractUrlFromHtml, if_pos (by rw [jsTrim_idem]; exact hhtml)]
    have hcand : pasteUrlCandidate (jsTrim clip.plain) = u := by
      rw [pasteUrlCandidate, hstart, hany]
    have h1 := handlePaste_parsed_empty_para jsURL htmlAnchor clip front back
      pattrs parsed hfront hback
      (by rw [heff]; exact hne)
      (by rw [heff, hcand]; exact huns)
      (by rw [heff, hcand]; exact hurl)
    rw [heff, hcand] at h1
    exact h1


/-- Witness for C1 (amended): pasting the bare URL
`"https://example.com/video"` into the empty top-level paragraph of a
one-paragraph document yields exactly one embed node carrying it as
`originalUrl`. -/
theorem C1_embed_paste_replaces_empty_block_witness :
    handlePaste jsURLStub noHtmlAnchor (some ⟨"https://example.com/video", ""⟩)
        (fragAppend .nil (.cons (.elem "paragraph" [] .nil) .nil))
        (fragSize (.nil : PMFrag) + 1) (fragSize (.nil : PMFrag) + 1) =
      some (fragAppend .nil (.cons (.leaf "embed"
        (embedAttrs "https://example.com/video" EmbedProvider.generic
          (jsTrim "https://example.com/video"))) .nil)) :=
  (C1_embed_paste_replaces_empty_block jsURLStub noHtmlAnchor
      ⟨"https://example.com/video", ""⟩ .nil .nil .nil [] rfl rfl).1
    ⟨"https://example.com/video", EmbedProvider.generic⟩ rfl rfl rfl


/-! ### Lemmas for `normalizeDocHeadingLevels` -/

theorem fragSize_cons (c : PMNode) (rest : PMFrag) :
    fragSize (.cons c rest) = nodeSize c + fragSize rest := rfl


theorem nodeSize_setNodeAttrs (c : PMNode) (attrs : List (String × JVal)) :
    nodeSize (setNodeAttrs c attrs) = nodeSize c := by
  cases c <;> rfl


mutual
theorem nodeSize_setNodeMarkupNode (c : PMNode) (start pos : Nat)
    (attrs : List (String × JVal)) :
    nodeSize (setNodeMarkupNode c start pos attrs) = nodeSize c := by
  cases c with
  | text s => rfl
  | leaf n a => rfl
  | elem n a content =>
    rw [setNodeMarkupNode]
    show 2 + fragSize (setNodeMarkupFrag content (start + 1) pos attrs) =
      2 + fragSize content
    rw [fragSize_setNodeMarkupFrag content (start + 1) pos attrs]
theorem fragSize_setNodeMarkupFrag (frag : PMFrag) (start pos : Nat)
    (attrs : List (String × JVal)) :
    fragSize (setNodeMarkupFrag frag start pos attrs) = fragSize frag := by
  cases frag with
  | nil => rfl
  | cons c rest =>
    rw [setNodeMarkupFrag]
    split
    · rw [fragSize_cons, fragSize_cons, nodeSize_setNodeAttrs]
    · split
      · rw [fragSize_cons, fragSize_cons,
          nodeSize_setNodeMarkupNode c start pos attrs]
      · rw [fragSize_cons, fragSize_cons,
          fragSize_setNodeMarkupFrag rest (start + nodeSize c) pos attrs]
end


theorem nodeWF_size_pos {c : PMNode} (h : nodeWF c = true) : 0 < nodeSize c := by
  cases c with
  | text s =>
    rw [nodeWF] at h
    rw [show nodeSize (.text s) = s.length from rfl]
    exact of_decide_eq_true h
  | leaf n a => rw [show nodeSize (.leaf n a) = 1 from rfl]; omega
  | elem n a content =>
    rw [show nodeSize (.elem n a content) = 2 + fragSize content from rfl]
    omega


mutual
theorem fragDescendants_pos_range (frag : PMFrag) (start : Nat)
    (hwf : fragWF frag = true) :
    ∀ e ∈ fragDescendants frag start, start ≤ e.1 ∧ e.1 < start + fragSize frag := by
  cases frag with
  | nil => intro e he; simp [fragDescendants] at he
  | cons c rest =>
    rw [fragWF, Bool.and_eq_true] at hwf
    intro e he
    rw [fragDescendants] at he
    rw [fragSize_cons]
    rcases List.mem_cons.mp he with he | he
    · rw [he]
      have := nodeWF_size_pos hwf.1
      constructor
      · exact le_refl _
      · simp only
        omega
    · rcases List.mem_append.mp he with he | he
      · have := nodeDescendants_pos_range c start hwf.1 e he
        omega
      · have := fragDescendants_pos_range rest (start + nodeSize c) hwf.2 e he
        omega
theorem nodeDescendants_pos_range (c : PMNode) (start : Nat)
    (hwf : nodeWF c = true) :
    ∀ e ∈ nodeDescendants c start, start < e.1 ∧ e.1 < start + nodeSize c := by
  cases c with
  | text s => intro e he; simp [nodeDescendants] at he
  | leaf n a => intro e he; simp [nodeDescendants] at he
  | elem n a content =>
    intro e he
    rw [nodeDescendants] at he
    rw [nodeWF] at hwf
    have := fragDescendants_pos_range content (start + 1) hwf e he
    rw [show nodeSize (.elem n a content) = 2 + fragSize content from rfl]
    omega
end


theorem nodeTypeName_setNodeAttrs (c : PMNode) (attrs : List (String × JVal)) :
    nodeTypeName (setNodeAttrs c attrs) = nodeTypeName c := by
  cases c <;> rfl


theorem nodeAttrs_setNodeAttrs (c : PMNode) (attrs : List (String × JVal))
    (h : nodeTypeName c ≠ "text") :
    nodeAttrs (setNodeAttrs c attrs) = attrs := by
  cases c with
  | text s => exact absurd rfl h
  | leaf n a => rfl
  | elem n a content => rfl


theorem nodeDescendants_setNodeAttrs (c : PMNode) (attrs : List (String × JVal))
    (start : Nat) :
    nodeDescendants (setNodeAttrs c attrs) start = nodeDescendants c start := by
  cases c <;> rfl


theorem nodeTypeName_setNodeMarkupNode (c : PMNode) (start pos : Nat)
    (attrs : List (String × JVal)) :
    nodeTypeName (setNodeMarkupNode c start pos attrs) = nodeTypeName c := by
  cases c <;> rfl


theorem nodeAttrs_setNodeMarkupNode (c : PMNode) (start pos : Nat)
    (attrs : List (String × JVal)) :
    nodeAttrs (setNodeMarkupNode c start pos attrs) = nodeAttrs c := by
  cases c <;> rfl


theorem nodeWF_setNodeAttrs (c : PMNode) (attrs : List (String × JVal)) :
    nodeWF (setNodeAttrs c attrs) = nodeWF c := by
  cases c <;> rfl


mutual
theorem nodeWF_setNodeMarkupNode (c : PMNode) (start pos : Nat)
    (attrs : List (String × JVal)) :
    nodeWF (setNodeMarkupNode c start pos attrs) = nodeWF c := by
  cases c with
  | text s => rfl
  | leaf n a => rfl
  | elem n a content =>
    rw [setNodeMarkupNode]
    show fragWF (setNodeMarkupFrag content (start + 1) pos attrs) = fragWF content
    exact fragWF_setNodeMarkupFrag content (start + 1) pos attrs
theorem fragWF_setNodeMarkupFrag (frag : PMFrag) (start pos : Nat)
    (attrs : List (String × JVal)) :
    fragWF (setNodeMarkupFrag frag start pos attrs) = fragWF frag := by
  cases frag with
  | nil => rfl
  | cons c rest =>
    rw [setNodeMarkupFrag]
    split
    · show (nodeWF (setNodeAttrs c attrs) && fragWF rest) = (nodeWF c && fragWF rest)
      rw [nodeWF_setNodeAttrs]
    · split
      · show (nodeWF (setNodeMarkupNode c start pos attrs) && fragWF rest) =
          (nodeWF c && fragWF rest)
        rw [nodeWF_setNodeMarkupNode c start pos attrs]
      · show (nodeWF c && fragWF (setNodeMarkupFrag rest (start + nodeSize c) pos attrs)) =
          (nodeWF c && fragWF rest)
        rw [fragWF_setNodeMarkupFrag rest (start + nodeSize c) pos attrs]
end


mutual
theorem fragDescendants_pairwise (frag : PMFrag) (start : Nat)
    (hwf : fragWF frag = true) :
    List.Pairwise (fun a b => a.1 < b.1) (fragDescendants frag start) := by
  cases frag with
  | nil => exact List.Pairwise.nil
  | cons c rest =>
    rw [fragWF, Bool.and_eq_true] at hwf
    rw [fragDescendants]
    refine List.Pairwise.cons ?_ ?_
    · intro e he
      rcases List.mem_append.mp he with he | he
      · exact (nodeDescendants_pos_range c start hwf.1 e he).1
      · have := (fragDescendants_pos_range rest (start + nodeSize c) hwf.2 e he).1
        have := nodeWF_size_pos hwf.1
        omega
    · simp only [List.append_eq]
      rw [List.pairwise_append]
      refine ⟨nodeDescendants_pairwise c start hwf.1,
        fragDescendants_pairwise rest (start + nodeSize c) hwf.2, ?_⟩
      intro a ha b hb
      have h1 := (nodeDescendants_pos_range c start hwf.1 a ha).2
      have h2 := (fragDescendants_pos_range rest (start + nodeSize c) hwf.2 b hb).1
      omega
theorem nodeDescendants_pairwise (c : PMNode) (start : Nat)
    (hwf : nodeWF c = true) :
    List.Pairwise (fun a b => a.1 < b.1) (nodeDescendants c start) := by
  cases c with
  | text s => exact List.Pairwise.nil
  | leaf n a => exact List.Pairwise.nil
  | elem n a content =>
    rw [nodeWF] at hwf
    exact fragDescendants_pairwise content (start + 1) hwf
end


theorem map_patchEntry_id (p : Nat) (attrs : List (String × JVal))
    (l : List (Nat × String × List (String × JVal)))
    (h : ∀ e ∈ l, e.1 ≠ p) : l.map (patchEntry p attrs) = l := by
  induction l with
  | nil => rfl
  | cons e rest ih =>
    rw [List.map_cons, patchEntry, if_neg (h e (by simp))]
    rw [ih (fun x hx => h x (by simp [hx]))]


mutual
theorem fragDescendants_markup (frag : PMFrag) (start p : Nat)
    (attrs : List (String × JVal)) (hwf : fragWF frag = true)
    (hsp : start ≤ p)
    (htext : ∀ e ∈ fragDescendants frag start, e.1 = p → e.2.1 ≠ "text") :
    fragDescendants (setNodeMarkupFrag frag start p attrs) start =
      (fragDescendants frag start).map (patchEntry p attrs) := by
  cases frag with
  | nil => rfl
  | cons c rest =>
    rw [fragWF, Bool.and_eq_true] at hwf
    have hszc := nodeWF_size_pos hwf.1
    rw [setNodeMarkupFrag]
    by_cases h1 : p = start
    · rw [if_pos h1]
      have hc_not_text : nodeTypeName c ≠ "text" :=
        htext (start, nodeTypeName c, nodeAttrs c)
          (by rw [fragDescendants]; simp) h1.symm
      rw [fragDescendants, fragDescendants]
      simp only [List.append_eq, List.map_cons, List.map_append]
      rw [nodeTypeName_setNodeAttrs, nodeAttrs_setNodeAttrs c attrs hc_not_text]
      rw [nodeDescendants_setNodeAttrs, nodeSize_setNodeAttrs]
      rw [patchEntry, if_pos h1.symm]
      rw [map_patchEntry_id p attrs (nodeDescendants c start) (fun e he => by
        have := (nodeDescendants_pos_range c start hwf.1 e he).1
        omega)]
      rw [map_patchEntry_id p attrs (fragDescendants rest (start + nodeSize c))
        (fun e he => by
          have := (fragDescendants_pos_range rest (start + nodeSize c) hwf.2 e he).1
          omega)]
    · rw [if_neg h1]
      by_cases h2 : p < start + nodeSize c
      · rw [if_pos h2]
        rw [fragDescendants, fragDescendants]
        simp only [List.append_eq, List.map_cons, List.map_append]
        rw [nodeTypeName_setNodeMarkupNode, nodeAttrs_setNodeMarkupNode]
        rw [nodeSize_setNodeMarkupNode]
        rw [patchEntry, if_neg (by simpa using fun h => h1 h.symm)]
        rw [nodeDescendants_markup c start p attrs hwf.1 (by omega)
          (fun e he hep => htext e (by rw [fragDescendants]; simp [he]) hep)]
        rw [map_patchEntry_id p attrs (fragDescendants rest (start + nodeSize c))
          (fun e he => by
            have := (fragDescendants_pos_range rest (start + nodeSize c) hwf.2 e he).1
            omega)]
      · rw [if_neg h2]
        rw [fragDescendants, fragDescendants]
        simp only [List.append_eq, List.map_cons, List.map_append]
        rw [patchEntry, if_neg (by simpa using fun h => h1 h.symm)]
        rw [map_patchEntry_id p attrs (nodeDescendants c start) (fun e he => by
          have := (nodeDescendants_pos_range c start hwf.1 e he).2
          omega)]
        rw [fragDescendants_markup rest (start + nodeSize c) p attrs hwf.2 (by omega)
          (fun e he hep => htext e (by rw [fragDescendants]; simp [he]) hep)]
theorem nodeDescendants_markup (c : PMNode) (start p : Nat)
    (attrs : List (String × JVal)) (hwf : nodeWF c = true) (hsp : start < p)
    (htext : ∀ e ∈ nodeDescendants c start, e.1 = p → e.2.1 ≠ "text") :
    nodeDescendants (setNodeMarkupNode c start p attrs) start =
      (nodeDescendants c start).map (patchEntry p attrs) := by
  cases c with
  | text s => rfl
  | leaf n a => rfl
  | elem n a content =>
    rw [nodeWF] at hwf
    rw [setNodeMarkupNode]
    show fragDescendants (setNodeMarkupFrag content (start + 1) p attrs) (start + 1) =
      (fragDescendants content (start + 1)).map (patchEntry p attrs)
    exact fragDescendants_markup content (start + 1) p attrs hwf (by omega)
      (fun e he hep => htext e he hep)
end


theorem patchEntry_fst (p : Nat) (attrs : List (String × JVal))
    (e : Nat × String × List (String × JVal)) :
    (patchEntry p attrs e).1 = e.1 := by
  rw [patchEntry]
  split <;> rfl


theorem patchEntry_snd1 (p : Nat) (attrs : List (String × JVal))
    (e : Nat × String × List (String × JVal)) :
    (patchEntry p attrs e).2.1 = e.2.1 := by
  rw [patchEntry]
  split <;> rfl


theorem lookupPatch_nil (e : Nat × String × List (String × JVal)) :
    lookupPatch [] e = e := rfl


theorem lookupPatch_fst (us : List (Nat × List (String × JVal))) (e) :
    (lookupPatch us e).1 = e.1 := by
  rw [lookupPatch]
  split <;> rfl


theorem lookupPatch_snd1 (us : List (Nat × List (String × JVal))) (e) :
    (lookupPatch us e).2.1 = e.2.1 := by
  rw [lookupPatch]
  split <;> rfl


theorem lookupPatch_patchEntry (u : Nat × List (String × JVal))
    (us' : List (Nat × List (String × JVal)))
    (e : Nat × String × List (String × JVal))
    (hne : ∀ v ∈ us', u.1 ≠ v.1) :
    lookupPatch us' (patchEntry u.1 u.2 e) = lookupPatch (u :: us') e := by
  by_cases he : e.1 = u.1
  · rw [patchEntry, if_pos he]
    rw [lookupPatch, lookupPatch]
    rw [List.find?_cons_of_pos _ (by simp [he])]
    have hf : us'.find? (fun v => v.1 == e.1) = none := by
      rw [List.find?_eq_none]
      intro v hv
      simp only [beq_iff_eq]
      intro hvv
      exact hne v hv (by omega)
    simp only
    rw [hf]
  · rw [patchEntry, if_neg he]
    rw [lookupPatch, lookupPatch]
    rw [List.find?_cons_of_neg _ (by simp; omega)]


theorem fold_markup_descendants :
    ∀ (us : List (Nat × List (String × JVal))) (d : PMFrag),
    fragWF d = true →
    List.Pairwise (fun a b => a.1 ≠ b.1) us →
    (∀ u ∈ us, ∀ e ∈ fragDescendants d 0, e.1 = u.1 → e.2.1 ≠ "text") →
    fragDescendants (us.foldl (fun d u => setNodeMarkupFrag d 0 u.1 u.2) d) 0 =
      (fragDescendants d 0).map (lookupPatch us)
  | [], d, _, _, _ => by
    rw [List.foldl_nil]
    rw [show lookupPatch [] = id from funext lookupPatch_nil, List.map_id]
  | u :: us', d, hwf, hnodup, htext => by
    rw [List.foldl_cons]
    have hmk := fragDescendants_markup d 0 u.1 u.2 hwf (Nat.zero_le _)
      (fun e he hep => htext u (by simp) e he hep)
    rw [fold_markup_descendants us' (setNodeMarkupFrag d 0 u.1 u.2)
      (by rw [fragWF_setNodeMarkupFrag]; exact hwf)
      (List.Pairwise.sublist (List.sublist_cons_self u us') hnodup)
      (by
        intro v hv e he hep
        rw [hmk] at he
        obtain ⟨e0, he0, heq⟩ := List.mem_map.mp he
        rw [← heq, patchEntry_snd1]
        rw [← heq, patchEntry_fst] at hep
        exact htext v (by simp [hv]) e0 he0 hep)]
    rw [hmk, List.map_map]
    refine List.map_congr_left ?_
    intro e he
    exact lookupPatch_patchEntry u us' e
      (by
        rcases hnodup with _ | ⟨hhead, _⟩
        exact fun v hv => hhead v hv)


theorem insertByPosDesc_perm (u : Nat × List (String × JVal)) :
    ∀ l : List (Nat × List (String × JVal)),
    List.Perm (insertByPosDesc u l) (u :: l)
  | [] => List.Perm.refl _
  | v :: rest => by
    rw [insertByPosDesc]
    split
    · exact List.Perm.refl _
    · exact ((insertByPosDesc_perm u rest).cons v).trans (List.Perm.swap u v rest)


theorem sortByPosDesc_perm :
    ∀ l : List (Nat × List (String × JVal)), List.Perm (sortByPosDesc l) l
  | [] => List.Perm.refl _
  | u :: rest => by
    rw [sortByPosDesc]
    exact (insertByPosDesc_perm u (sortByPosDesc rest)).trans
      ((sortByPosDesc_perm rest).cons u)


theorem insertByPosDesc_sorted (u : Nat × List (String × JVal)) :
    ∀ l : List (Nat × List (String × JVal)),
    List.Pairwise (fun a b => b.1 ≤ a.1) l →
    List.Pairwise (fun a b => b.1 ≤ a.1) (insertByPosDesc u l)
  | [], _ => List.Pairwise.cons (by simp) List.Pairwise.nil
  | v :: rest, h => by
    rw [insertByPosDesc]
    rcases h with _ | ⟨hhead, htail⟩
    split
    · rename_i hvu
      refine List.Pairwise.cons ?_ (List.Pairwise.cons hhead htail)
      intro b hb
      rcases List.mem_cons.mp hb with hb | hb
      · rw [hb]; exact hvu
      · exact le_trans (hhead b hb) hvu
    · rename_i hvu
      push_neg at hvu
      refine List.Pairwise.cons ?_ (insertByPosDesc_sorted u rest htail)
      intro b hb
      rcases List.mem_cons.mp ((insertByPosDesc_perm u rest).mem_iff.mp hb) with
        hb | hb
      · rw [hb]; omega
      · exact hhead b hb


theorem sortByPosDesc_sorted :
    ∀ l : List (Nat × List (String × JVal)),
    List.Pairwise (fun a b => b.1 ≤ a.1) (sortByPosDesc l)
  | [] => List.Pairwise.nil
  | u :: rest => by
    rw [sortByPosDesc]
    exact insertByPosDesc_sorted u (sortByPosDesc rest) (sortByPosDesc_sorted rest)


theorem headingUpdateOf_some {minLevel : Int}
    {e : Nat × String × List (String × JVal)}
    {u : Nat × List (String × JVal)} (h : headingUpdateOf minLevel e = some u) :
    e.2.1 = "heading" ∧ ∃ lv, getNumAttr e.2.2 "level" = some lv ∧ lv < minLevel ∧
      u = (e.1, jsObjSet e.2.2 "level" (.num minLevel)) := by
  rw [headingUpdateOf] at h
  split at h
  · rename_i hh
    split at h
    · rename_i lv hlv
      split at h
      · rename_i hlt
        injection h with h
        exact ⟨hh, lv, hlv, hlt, h.symm⟩
      · exact absurd h (by simp)
    · exact absurd h (by simp)
  · exact absurd h (by simp)


theorem headingUpdateOf_fst {minLevel : Int}
    {e : Nat × String × List (String × JVal)}
    {u : Nat × List (String × JVal)} (h : headingUpdateOf minLevel e = some u) :
    u.1 = e.1 := by
  obtain ⟨_, _, _, _, hu⟩ := headingUpdateOf_some h
  rw [hu]


theorem filterMap_pairwise_fst {α β : Type}
    (g : (Nat × α) → Option (Nat × β))
    (hg : ∀ e u, g e = some u → u.1 = e.1) :
    ∀ l : List (Nat × α), List.Pairwise (fun a b => a.1 < b.1) l →
    List.Pairwise (fun a b => a.1 < b.1) (l.filterMap g) := by
  intro l hl
  induction hl with
  | nil => simp
  | @cons a l2 hhead htail ih =>
    rw [List.filterMap_cons]
    split
    · exact ih
    · rename_i u hu
      refine List.Pairwise.cons ?_ ih
      intro b hb
      obtain ⟨e, he, hge⟩ := List.mem_filterMap.mp hb
      rw [hg _ _ hu, hg _ _ hge]
      exact hhead e he


theorem pairwise_fst_inj {α : Type} {l : List (Nat × α)}
    (h : List.Pairwise (fun a b => a.1 < b.1) l) :
    ∀ e ∈ l, ∀ e2 ∈ l, e.1 = e2.1 → e = e2 := by
  induction h with
  | nil => intro e he; simp at he
  | @cons a l2 hhead htail ih =>
    intro e he e2 he2 heq
    rcases List.mem_cons.mp he with he | he <;>
      rcases List.mem_cons.mp he2 with he2 | he2
    · rw [he, he2]
    · rw [he] at heq
      have := hhead e2 he2
      omega
    · rw [he2] at heq
      have := hhead e he
      omega
    · exact ih e he e2 he2 heq


theorem headingUpdateOf_patched_none (m : Int) (posn : Nat) (tn : String)
    (attrs2 : List (String × JVal))
    (hget : getNumAttr attrs2 "level" = some m) :
    headingUpdateOf m (posn, tn, attrs2) = none := by
  simp only [headingUpdateOf, hget]
  split
  · rw [if_neg (by omega)]
  · rfl


theorem normalizeDoc_idem (doc : PMFrag) (allowed : List Int)
    (hwf : fragWF doc = true) (d2 : PMFrag)
    (h : normalizeDocHeadingLevels doc allowed = some d2) :
    normalizeDocHeadingLevels d2 allowed = none := by
  rw [normalizeDocHeadingLevels] at h
  by_cases hemp : (collectHeadingUpdates doc (docMinLevel allowed)).isEmpty = true
  · rw [if_pos hemp] at h
    exact absurd h (by simp)
  · rw [if_neg hemp] at h
    injection h with h
    have hdesc_pw := fragDescendants_pairwise doc 0 hwf
    have hus_pw : List.Pairwise (fun a b => a.1 < b.1)
        (collectHeadingUpdates doc (docMinLevel allowed)) :=
      filterMap_pairwise_fst _ (fun e u hg => headingUpdateOf_fst hg) _ hdesc_pw
    have hsorted_ne : List.Pairwise (fun a b => a.1 ≠ b.1)
        (sortByPosDesc (collectHeadingUpdates doc (docMinLevel allowed))) :=
      ((sortByPosDesc_perm _).pairwise_iff (fun hab h2 => hab h2.symm)).mpr
        (hus_pw.imp (fun hlt => by omega))
    have htext_sorted : ∀ u ∈ sortByPosDesc
          (collectHeadingUpdates doc (docMinLevel allowed)),
        ∀ e ∈ fragDescendants doc 0, e.1 = u.1 → e.2.1 ≠ "text" := by
      intro u hu e he hep
      have hu_us := (sortByPosDesc_perm _).mem_iff.mp hu
      obtain ⟨e0, he0, hg0⟩ := List.mem_filterMap.mp hu_us
      obtain ⟨hh0, lv, hlv, hlt, hu_eq⟩ := headingUpdateOf_some hg0
      have he_eq : e = e0 := pairwise_fst_inj hdesc_pw e he e0 he0
        (by rw [hep, hu_eq])
      rw [he_eq, hh0]
      simp
    have hfold := fold_markup_descendants
      (sortByPosDesc (collectHeadingUpdates doc (docMinLevel allowed))) doc hwf
      hsorted_ne htext_sorted
    rw [h] at hfold
    have hcollect : collectHeadingUpdates d2 (docMinLevel allowed) = [] := by
      rw [collectHeadingUpdates, hfold, List.filterMap_map, List.filterMap_eq_nil_iff]
      intro e he
      show headingUpdateOf (docMinLevel allowed)
        (lookupPatch (sortByPosDesc (collectHeadingUpdates doc (docMinLevel allowed))) e) = none
      rcases hf : (sortByPosDesc (collectHeadingUpdates doc (docMinLevel allowed))).find?
          (fun u => u.1 == e.1) with _ | u
      · rw [lookupPatch, hf]
        rcases hg : headingUpdateOf (docMinLevel allowed) e with _ | u2
        · rfl
        · have hu2_us : u2 ∈ collectHeadingUpdates doc (docMinLevel allowed) :=
            List.mem_filterMap.mpr ⟨e, he, hg⟩
          have hu2_sorted := (sortByPosDesc_perm _).mem_iff.mpr hu2_us
          have := List.find?_eq_none.mp hf u2 hu2_sorted
          exact absurd (by simp [headingUpdateOf_fst hg]) this
      · rw [lookupPatch, hf]
        have hu_sorted := List.mem_of_find?_eq_some hf
        have hbeq : (u.1 == e.1) = true := List.find?_some (p := fun v : Nat × List (String × JVal) => v.1 == e.1) hf
        have hu_us := (sortByPosDesc_perm _).mem_iff.mp hu_sorted
        obtain ⟨e0, he0, hg0⟩ := List.mem_filterMap.mp hu_us
        obtain ⟨hh0, lv, hlv, hlt, hu_eq⟩ := headingUpdateOf_some hg0
        have hget : getNumAttr u.2 "level" = some (docMinLevel allowed) := by
          rw [hu_eq]
          exact getNumAttr_jsObjSet _ _ _
        exact headingUpdateOf_patched_none (docMinLevel allowed) e.1 e.2.1 u.2 hget
    rw [normalizeDocHeadingLevels, if_pos (by rw [hcollect]; rfl)]


/-- C5: `normalizeDocHeadingLevels` collects exactly the headings whose
numeric level is below the minimum allowed level (it dispatches no
transaction precisely when that collection is empty), applies the rewrites
in descending position order (the applied list is sorted by descending
position) as one single dispatched transaction, and is idempotent: on any
well-formed document (no empty text nodes, the engine invariant), a second
run after a dispatching run finds zero headings below the minimum and
dispatches nothing. -/
theorem C5_normalizeDocument_spec (doc : PMFrag) (allowed : List Int)
    (hwf : fragWF doc = true) :
    (normalizeDocHeadingLevels doc allowed = none ↔
      collectHeadingUpdates doc (docMinLevel allowed) = []) ∧
    List.Pairwise (fun a b => b.1 ≤ a.1)
      (sortByPosDesc (collectHeadingUpdates doc (docMinLevel allowed))) ∧
    ∀ d2, normalizeDocHeadingLevels doc allowed = some d2 →
      normalizeDocHeadingLevels d2 allowed = none := by
  refine ⟨?_, sortByPosDesc_sorted _, fun d2 h => normalizeDoc_idem doc allowed hwf d2 h⟩
  rw [normalizeDocHeadingLevels]
  by_cases hemp : (collectHeadingUpdates doc (docMinLevel allowed)).isEmpty = true
  · rw [if_pos hemp]
    simp only [true_iff]
    exact List.isEmpty_iff.mp hemp
  · rw [if_neg hemp]
    constructor
    · intro hcontra
      exact absurd hcontra (by simp)
    · intro hcontra
      rw [hcontra] at hemp
      exact absurd rfl hemp


/-- Witness for C5: a document containing a level-1 heading, normalized
against `{2,3,4,5,6}`; the first run dispatches one transaction lifting the
heading to level 2, the second run dispatches nothing. -/
theorem C5_normalizeDocument_witness :
    normalizeDocHeadingLevels
        (.cons (.elem "heading" [("level", .num 1)] (.cons (.text "T") .nil))
          (.cons (.elem "paragraph" [] .nil) .nil)) [2, 3, 4, 5, 6] =
      some (.cons (.elem "heading" [("level", .num 2)] (.cons (.text "T") .nil))
          (.cons (.elem "paragraph" [] .nil) .nil)) ∧
    normalizeDocHeadingLevels
        (.cons (.elem "heading" [("level", .num 2)] (.cons (.text "T") .nil))
          (.cons (.elem "paragraph" [] .nil) .nil)) [2, 3, 4, 5, 6] = none :=
  ⟨by rfl,
   (C5_normalizeDocument_spec
      (.cons (.elem "heading" [("level", .num 1)] (.cons (.text "T") .nil))
        (.cons (.elem "paragraph" [] .nil) .nil)) [2, 3, 4, 5, 6] (by rfl)).2.2
      _ (by rfl)⟩

end Commently

